import Mathlib

/-!
Shallow embedding of parts of the HiGHS LP/MIP solver sources, together
with theorems settling the specification claims about them.  Machine
doubles are embedded as exact rationals (`ℚ`); fallible operations return
a status value mirroring `HighsStatus`.
-/

/-- `HighsStatus` return codes (`{ok, warning, error}` of the interface). -/
inductive HighsStatus where
  | kOk
  | kWarning
  | kError
deriving DecidableEq

/-- Modelled from the spec: the definition of `HighsModelStatus` lives in a
header that is not among the sources; `PresolveComponent::run` distinguishes
`PRIMAL_INFEASIBLE`, `DUAL_INFEASIBLE` and `OPTIMAL` and treats every other
model status alike, so the remaining constructors stand for the spec's other
solver outcomes (not-set, limits, solve error). -/
inductive HighsModelStatus where
  | NOTSET
  | OPTIMAL
  | PRIMAL_INFEASIBLE
  | DUAL_INFEASIBLE
  | REACHED_TIME_LIMIT
  | REACHED_ITERATION_LIMIT
  | SOLVE_ERROR
deriving DecidableEq

/-- Modelled from the spec: the definition of `HighsPresolveStatus` is not
among the sources; the spec lists the presolve outcomes
`{reduced, reduced_to_empty, not_reduced, infeasible, unbounded, null_error, error}`. -/
inductive HighsPresolveStatus where
  | NotReduced
  | Reduced
  | ReducedToEmpty
  | Infeasible
  | Unbounded
  | NullError
  | Error
deriving DecidableEq

/-- `PresolveComponent::run` (PresolveComponent.cpp): the switch mapping the
model status returned by `presolve.run` to a presolve status. -/
def PresolveComponent_run (status : HighsModelStatus) : HighsPresolveStatus :=
  match status with
  | HighsModelStatus.PRIMAL_INFEASIBLE => HighsPresolveStatus.Infeasible
  | HighsModelStatus.DUAL_INFEASIBLE => HighsPresolveStatus.Unbounded
  | HighsModelStatus.OPTIMAL => HighsPresolveStatus.ReducedToEmpty
  | _ => HighsPresolveStatus.Reduced

/-- C10: `PresolveComponent::run` returns `Infeasible` for a primal-infeasible
model status, `Unbounded` for dual-infeasible, `ReducedToEmpty` for optimal,
`Reduced` for every other model status, and never returns `NotReduced`,
`NullError` or `Error`. -/
theorem presolveComponent_run_outcomes (s : HighsModelStatus) :
    PresolveComponent_run HighsModelStatus.PRIMAL_INFEASIBLE =
      HighsPresolveStatus.Infeasible ∧
    PresolveComponent_run HighsModelStatus.DUAL_INFEASIBLE =
      HighsPresolveStatus.Unbounded ∧
    PresolveComponent_run HighsModelStatus.OPTIMAL =
      HighsPresolveStatus.ReducedToEmpty ∧
    (s ≠ HighsModelStatus.PRIMAL_INFEASIBLE →
      s ≠ HighsModelStatus.DUAL_INFEASIBLE →
      s ≠ HighsModelStatus.OPTIMAL →
      PresolveComponent_run s = HighsPresolveStatus.Reduced) ∧
    PresolveComponent_run s ≠ HighsPresolveStatus.NotReduced ∧
    PresolveComponent_run s ≠ HighsPresolveStatus.NullError ∧
    PresolveComponent_run s ≠ HighsPresolveStatus.Error := by
  cases s <;> refine ⟨rfl, rfl, rfl, ?_, ?_, ?_, ?_⟩ <;> decide

/-- Witness for `presolveComponent_run_outcomes` at the concrete model status
`NOTSET`, discharging the hypotheses of its fourth conjunct. -/
theorem presolveComponent_run_outcomes_witness :
    PresolveComponent_run HighsModelStatus.NOTSET = HighsPresolveStatus.Reduced :=
  (presolveComponent_run_outcomes HighsModelStatus.NOTSET).2.2.2.1
    (by decide) (by decide) (by decide)

/-! ### CHUZC sort-strategy selection (`HEkkDualRow::chooseFinal`, step 2) -/

/-- `use_quad_sort` as assigned in `HEkkDualRow::chooseFinal`
(HEkkDualRow.cpp): the source hard-codes `use_quad_sort = true;` — the test
`workCount < 100` appears only as a comment on that line. -/
def chuzcUseQuadSort (workCount : ℤ) : Bool := true

/-- `use_heap_sort = !use_quad_sort` in `HEkkDualRow::chooseFinal`. -/
def chuzcUseHeapSort (workCount : ℤ) : Bool := !chuzcUseQuadSort workCount

/-- The analysis counters touched by step 2 of `HEkkDualRow::chooseFinal`. -/
structure ChuzcAnalysisCounts where
  num_quad_chuzc : ℤ
  num_heap_chuzc : ℤ
  sum_heap_chuzc_size : ℤ
  max_heap_chuzc_size : ℤ
deriving DecidableEq

/-- The counter update `if (workCount < 100) num_quad_chuzc++ else …` in
`HEkkDualRow::chooseFinal`. -/
def chuzcUpdateAnalysis (workCount : ℤ) (a : ChuzcAnalysisCounts) :
    ChuzcAnalysisCounts :=
  if workCount < 100 then
    { a with num_quad_chuzc := a.num_quad_chuzc + 1 }
  else
    { a with num_heap_chuzc := a.num_heap_chuzc + 1,
             sum_heap_chuzc_size := a.sum_heap_chuzc_size + workCount,
             max_heap_chuzc_size := max workCount a.max_heap_chuzc_size }

/-- C1 counterexample: at the concrete BFRT candidate count 200 (which
exceeds the threshold 100) the heap-based sort is *not* used — the source
hard-codes the quadratic sort. -/
theorem chuzc_heap_not_used_at_200 :
    (100 : ℤ) < 200 ∧ chuzcUseHeapSort 200 = false := by
  exact ⟨by decide, rfl⟩

/-- C1 (amended): `HEkkDualRow::chooseFinal` always uses the quadratic scan
(`use_quad_sort` is hard-coded `true`, so `use_heap_sort` is always `false`);
the threshold 100 only selects which analysis counter is updated
(`num_quad_chuzc` below 100, the heap counters otherwise). -/
theorem chuzc_always_quad_sort (workCount : ℤ) (a : ChuzcAnalysisCounts) :
    chuzcUseQuadSort workCount = true ∧
    chuzcUseHeapSort workCount = false ∧
    (workCount < 100 →
      chuzcUpdateAnalysis workCount a =
        { a with num_quad_chuzc := a.num_quad_chuzc + 1 }) ∧
    (¬ workCount < 100 →
      chuzcUpdateAnalysis workCount a =
        { a with num_heap_chuzc := a.num_heap_chuzc + 1,
                 sum_heap_chuzc_size := a.sum_heap_chuzc_size + workCount,
                 max_heap_chuzc_size := max workCount a.max_heap_chuzc_size }) := by
  refine ⟨rfl, rfl, fun h => ?_, fun h => ?_⟩ <;>
    simp [chuzcUpdateAnalysis, h]

/-- Witness for `chuzc_always_quad_sort` at the concrete count 200,
discharging the hypothesis of its fourth conjunct. -/
theorem chuzc_always_quad_sort_witness :
    chuzcUpdateAnalysis 200 ⟨0, 0, 0, 0⟩ =
      { num_quad_chuzc := 0, num_heap_chuzc := 1,
        sum_heap_chuzc_size := 200, max_heap_chuzc_size := 200 } := by
  have h := (chuzc_always_quad_sort 200 ⟨0, 0, 0, 0⟩).2.2.2 (by decide)
  rw [h]; decide

/-! ### Final pivot selection and BFRT flip list
(`HEkkDualRow::chooseFinal`, steps 3 and 4, quadratic-sort branch) -/

/-- The outputs of steps 3–4 of `HEkkDualRow::chooseFinal`: the chosen pivot,
its alpha, the dual step `workTheta`, and the BFRT flip list rebuilt into
`workData[0..workCount)`. -/
structure ChooseFinalResult where
  workPivot : ℕ
  workAlpha : ℚ
  workTheta : ℚ
  workData : List (ℕ × ℚ)

/-- The pivot read off the break entry in step 3 of
`HEkkDualRow::chooseFinal`: `workPivot = workData[breakIndex].first`. -/
def chooseFinalPivot (workData : List (ℕ × ℚ)) (breakIndex : ℕ) : ℕ :=
  (workData.getD breakIndex (0, 0)).1

/-- The dual step set in step 3 of `HEkkDualRow::chooseFinal`:
`workTheta = workDual[pivot]/alpha` when `workDual[pivot]*workMove[pivot] > 0`,
and `0` otherwise. -/
def chooseFinalTheta (workDual : ℕ → ℚ) (workMove : ℕ → ℤ) (pivot : ℕ)
    (alpha : ℚ) : ℚ :=
  if 0 < workDual pivot * (workMove pivot : ℚ) then workDual pivot / alpha
  else 0

/-- Steps 3–4 of `HEkkDualRow::chooseFinal` (quadratic-sort branch,
HEkkDualRow.cpp): read the break entry, form `workAlpha`, set `workTheta`,
rebuild `workData[0..workCount)` as the flip list of the groups before the
break group, and clear it (`workCount = 0`) when `workTheta == 0`.  The final
`pdqsort` call only reorders the flip list and is omitted; it does not change
`workCount`. -/
def chooseFinalStep34 (workData : List (ℕ × ℚ)) (workGroup : List ℕ)
    (breakIndex breakGroup : ℕ) (workDelta : ℚ)
    (workMove : ℕ → ℤ) (workDual workRange : ℕ → ℚ) : ChooseFinalResult :=
  let move_out : ℤ := if workDelta < 0 then -1 else 1
  let workPivot := chooseFinalPivot workData breakIndex
  let workAlpha := (workData.getD breakIndex (0, 0)).2 * (move_out : ℚ) *
      (workMove workPivot : ℚ)
  let workTheta := chooseFinalTheta workDual workMove workPivot workAlpha
  let flips := (workData.take (workGroup.getD breakGroup 0)).map
      (fun e => (e.1, (workMove e.1 : ℚ) * workRange e.1))
  { workPivot := workPivot, workAlpha := workAlpha, workTheta := workTheta,
    workData := if workTheta = 0 then [] else flips }

/-- A pivot with nonpositive `workDual·workMove` gets a zero `workTheta`. -/
theorem chooseFinalTheta_eq_zero (workDual : ℕ → ℚ) (workMove : ℕ → ℤ)
    (pivot : ℕ) (alpha : ℚ)
    (h : workDual pivot * (workMove pivot : ℚ) ≤ 0) :
    chooseFinalTheta workDual workMove pivot alpha = 0 :=
  if_neg (not_lt.mpr h)

/-- C9: whenever steps 3–4 of `HEkkDualRow::chooseFinal` finish with a zero
dual step `workTheta`, the BFRT flip list is emptied; in particular a pivot
whose reduced cost satisfies `workMove[pivot]·workDual[pivot] ≤ 0` forces
`workTheta = 0` and hence an empty flip list. -/
theorem chooseFinal_zero_theta_no_flips (workData : List (ℕ × ℚ))
    (workGroup : List ℕ) (breakIndex breakGroup : ℕ) (workDelta : ℚ)
    (workMove : ℕ → ℤ) (workDual workRange : ℕ → ℚ) :
    (let r := chooseFinalStep34 workData workGroup breakIndex breakGroup
        workDelta workMove workDual workRange
     let p := chooseFinalPivot workData breakIndex
     (r.workTheta = 0 → r.workData = []) ∧
     (workDual p * (workMove p : ℚ) ≤ 0 →
        r.workTheta = 0 ∧ r.workData = [])) := by
  refine ⟨fun h => ?_, fun h => ?_⟩
  · simp only [chooseFinalStep34] at h ⊢
    rw [if_pos h]
  · simp only [chooseFinalStep34]
    exact ⟨chooseFinalTheta_eq_zero _ _ _ _ h,
      by rw [if_pos (chooseFinalTheta_eq_zero _ _ _ _ h)]⟩

/-- Witness for `chooseFinal_zero_theta_no_flips` at a concrete input with a
nonpositive pivot reduced cost, discharging the hypothesis of its second
conjunct. -/
theorem chooseFinal_zero_theta_no_flips_witness :
    (chooseFinalStep34 [(0, 1)] [1] 0 0 (-1) (fun _ => 1) (fun _ => -1)
        (fun _ => 1)).workTheta = 0 ∧
    (chooseFinalStep34 [(0, 1)] [1] 0 0 (-1) (fun _ => 1) (fun _ => -1)
        (fun _ => 1)).workData = [] :=
  (chooseFinal_zero_theta_no_flips [(0, 1)] [1] 0 0 (-1) (fun _ => 1)
      (fun _ => -1) (fun _ => 1)).2 (by norm_num [chooseFinalPivot])

/-! ### CHUZC candidate collection (`HEkkDualRow::choosePossible`) -/

/-- The CHUZC pivot tolerance `Ta` of `HEkkDualRow::choosePossible`
(HEkkDualRow.cpp): `1e-9` for fewer than 10 updates, `3e-8` for fewer than
20, and `1e-6` otherwise. -/
def chuzcTa (update_count : ℕ) : ℚ :=
  if update_count < 10 then 1 / 10 ^ 9
  else if update_count < 20 then 3 / 10 ^ 8
  else 1 / 10 ^ 6

/-- The working state of `HEkkDualRow::choosePossible`: the candidate list
`workData[0..workCount)` and `workTheta`, where `none` stands for the
initial value `kHighsInf`. -/
structure ChoosePossibleState where
  workData : List (ℕ × ℚ)
  workTheta : Option ℚ
deriving DecidableEq

/-- One iteration of the loop of `HEkkDualRow::choosePossible`: compute
`alpha = packValue[i]·move_out·move`, and if `alpha > Ta` record the
candidate and lower `workTheta` to `relax/alpha` when
`workTheta·alpha > relax` (always true for the infinite initial value, since
`alpha > 0`). -/
def choosePossibleStep (Ta Td : ℚ) (move_out : ℤ) (workMove : ℕ → ℤ)
    (workDual : ℕ → ℚ) (s : ChoosePossibleState) (e : ℕ × ℚ) :
    ChoosePossibleState :=
  let iCol := e.1
  let move := workMove iCol
  let alpha := e.2 * (move_out : ℚ) * (move : ℚ)
  if Ta < alpha then
    let relax := workDual iCol * (move : ℚ) + Td
    { workData := s.workData ++ [(iCol, alpha)],
      workTheta :=
        match s.workTheta with
        | none => some (relax / alpha)
        | some t => if relax < t * alpha then some (relax / alpha) else some t }
  else s

/-- `HEkkDualRow::choosePossible` (HEkkDualRow.cpp): fold the loop body over
the packed row, starting from `workCount = 0` and `workTheta = kHighsInf`. -/
def choosePossible (pack : List (ℕ × ℚ)) (workMove : ℕ → ℤ)
    (workDual : ℕ → ℚ) (update_count : ℕ) (Td workDelta : ℚ) :
    ChoosePossibleState :=
  let move_out : ℤ := if workDelta < 0 then -1 else 1
  pack.foldl
    (choosePossibleStep (chuzcTa update_count) Td move_out workMove workDual)
    ⟨[], none⟩

/-- The candidates the claim describes: entries `(iCol, alpha)` of the packed
row with `alpha = packValue·move_out·move > Ta`. -/
def chuzcCandidates (Ta : ℚ) (move_out : ℤ) (workMove : ℕ → ℤ)
    (pack : List (ℕ × ℚ)) : List (ℕ × ℚ) :=
  pack.filterMap (fun e =>
    let alpha := e.2 * (move_out : ℚ) * (workMove e.1 : ℚ)
    if Ta < alpha then some (e.1, alpha) else none)

/-- The ratio `(move·dual + Td)/alpha` of a candidate list. -/
def chuzcRatios (Td : ℚ) (workMove : ℕ → ℤ) (workDual : ℕ → ℚ)
    (cands : List (ℕ × ℚ)) : List ℚ :=
  cands.map (fun c => (workDual c.1 * (workMove c.1 : ℚ) + Td) / c.2)

/-- Minimum of a rational list, `none` for the empty list. -/
def listMinQ : List ℚ → Option ℚ
  | [] => none
  | x :: xs =>
    match listMinQ xs with
    | none => some x
    | some m => some (min x m)

/-- Take the minimum with an optional value, the value standing alone when
the option is `none`. -/
def optMinQ : Option ℚ → ℚ → ℚ
  | none, x => x
  | some m, x => min m x

/-- `listMinQ` is `none` exactly on the empty list. -/
theorem listMinQ_eq_none (l : List ℚ) : listMinQ l = none ↔ l = [] := by
  cases l with
  | nil => simp [listMinQ]
  | cons x xs =>
    simp only [listMinQ]
    cases listMinQ xs <;> simp

/-- `listMinQ` really is the minimum: it returns a member below all members. -/
theorem listMinQ_is_min (l : List ℚ) (m : ℚ) (h : listMinQ l = some m) :
    m ∈ l ∧ ∀ y ∈ l, m ≤ y := by
  induction l generalizing m with
  | nil => simp [listMinQ] at h
  | cons x xs ih =>
    simp only [listMinQ] at h
    cases hxs : listMinQ xs with
    | none =>
      rw [hxs] at h
      have hxs' : xs = [] := (listMinQ_eq_none xs).mp hxs
      subst hxs'
      have hx : x = m := by simpa using h
      subst hx
      simp
    | some m' =>
      rw [hxs] at h
      have hm : min x m' = m := by simpa using h
      obtain ⟨hmem, hle⟩ := ih m' hxs
      subst hm
      constructor
      · rcases le_total x m' with hx | hx
        · simp [min_eq_left hx]
        · rw [min_eq_right hx]
          exact List.mem_cons_of_mem _ hmem
      · intro y hy
        rcases List.mem_cons.mp hy with rfl | hy
        · exact min_le_left _ _
        · exact le_trans (min_le_right _ _) (hle y hy)

/-- Appending an element to a list takes the minimum with it. -/
theorem listMinQ_append_singleton (l : List ℚ) (x : ℚ) :
    listMinQ (l ++ [x]) = some (optMinQ (listMinQ l) x) := by
  induction l with
  | nil => rfl
  | cons a l ih =>
    rw [List.cons_append]
    show (match listMinQ (l ++ [x]) with
      | none => some a
      | some m => some (min a m)) =
      some (optMinQ
        (match listMinQ l with
          | none => some a
          | some m => some (min a m)) x)
    rw [ih]
    cases hl : listMinQ l with
    | none => simp [optMinQ]
    | some m => simp [optMinQ, min_assoc]

/-- `chuzcTa` is positive for every update count. -/
theorem chuzcTa_pos (update_count : ℕ) : 0 < chuzcTa update_count := by
  unfold chuzcTa
  split_ifs <;> norm_num

/-- Loop invariant of `choosePossible`: folding the loop body keeps
`workTheta` equal to the minimum ratio of the accumulated candidates. -/
theorem choosePossible_fold (Ta Td : ℚ) (hTa : 0 < Ta) (move_out : ℤ)
    (workMove : ℕ → ℤ) (workDual : ℕ → ℚ) (pack : List (ℕ × ℚ)) :
    ∀ s : ChoosePossibleState,
      s.workTheta = listMinQ (chuzcRatios Td workMove workDual s.workData) →
      (pack.foldl (choosePossibleStep Ta Td move_out workMove workDual)
          s).workData =
        s.workData ++ chuzcCandidates Ta move_out workMove pack ∧
      (pack.foldl (choosePossibleStep Ta Td move_out workMove workDual)
          s).workTheta =
        listMinQ (chuzcRatios Td workMove workDual
          ((pack.foldl (choosePossibleStep Ta Td move_out workMove workDual)
              s).workData)) := by
  induction pack with
  | nil => intro s hs; simpa [chuzcCandidates]
  | cons e rest ih =>
    intro s hs
    rw [List.foldl_cons]
    by_cases hα : Ta < e.2 * (move_out : ℚ) * (workMove e.1 : ℚ)
    · have hαpos : 0 < e.2 * (move_out : ℚ) * (workMove e.1 : ℚ) :=
        lt_trans hTa hα
      set alpha := e.2 * (move_out : ℚ) * (workMove e.1 : ℚ) with halpha
      set relax := workDual e.1 * (workMove e.1 : ℚ) + Td with hrelax
      have hstep : choosePossibleStep Ta Td move_out workMove workDual s e =
          { workData := s.workData ++ [(e.1, alpha)],
            workTheta :=
              match s.workTheta with
              | none => some (relax / alpha)
              | some t =>
                if relax < t * alpha then some (relax / alpha) else some t } := by
        simp only [choosePossibleStep]
        rw [if_pos hα]
      have hratios : chuzcRatios Td workMove workDual
          (s.workData ++ [(e.1, alpha)]) =
          chuzcRatios Td workMove workDual s.workData ++ [relax / alpha] := by
        simp [chuzcRatios]
      have hinv : (choosePossibleStep Ta Td move_out workMove workDual
          s e).workTheta =
          listMinQ (chuzcRatios Td workMove workDual
            ((choosePossibleStep Ta Td move_out workMove workDual
              s e).workData)) := by
        rw [hstep]
        simp only
        rw [hratios, listMinQ_append_singleton, ← hs]
        cases hθ : s.workTheta with
        | none => rfl
        | some t =>
          show (if relax < t * alpha then some (relax / alpha) else some t) =
            some (min t (relax / alpha))
          by_cases hlt : relax < t * alpha
          · rw [if_pos hlt]
            have hdiv : relax / alpha < t := by
              rw [div_lt_iff₀ hαpos]; linarith
            rw [min_eq_right hdiv.le]
          · rw [if_neg hlt]
            have hdiv : t ≤ relax / alpha := by
              rw [le_div_iff₀ hαpos]
              have := not_lt.mp hlt
              linarith
            rw [min_eq_left hdiv]
      obtain ⟨hd, hθ'⟩ :=
        ih (choosePossibleStep Ta Td move_out workMove workDual s e) hinv
      refine ⟨?_, hθ'⟩
      rw [hd, hstep]
      simp only [chuzcCandidates, List.filterMap_cons]
      rw [if_pos hα]
      simp [List.append_assoc]
    · have hstep : choosePossibleStep Ta Td move_out workMove workDual s e =
          s := by
        simp only [choosePossibleStep]
        rw [if_neg hα]
      rw [hstep]
      obtain ⟨hd, hθ'⟩ := ih s hs
      refine ⟨?_, hθ'⟩
      rw [hd]
      simp only [chuzcCandidates, List.filterMap_cons]
      rw [if_neg hα]

/-- C2: `HEkkDualRow::choosePossible` records exactly the entries with
`alpha = packValue·move_out·move > Ta` (with the tiered tolerance `Ta`), and
returns `workTheta` equal to the minimum of `(move·dual + Td)/alpha` over the
recorded candidates (`none`, i.e. `kHighsInf`, when there is none). -/
theorem choosePossible_candidates_theta (pack : List (ℕ × ℚ))
    (workMove : ℕ → ℤ) (workDual : ℕ → ℚ) (update_count : ℕ)
    (Td workDelta : ℚ) :
    (let move_out : ℤ := if workDelta < 0 then -1 else 1
     let s := choosePossible pack workMove workDual update_count Td workDelta
     s.workData =
        chuzcCandidates (chuzcTa update_count) move_out workMove pack ∧
     s.workTheta = listMinQ (chuzcRatios Td workMove workDual s.workData)) ∧
    (update_count < 10 → chuzcTa update_count = 1 / 10 ^ 9) ∧
    (10 ≤ update_count → update_count < 20 → chuzcTa update_count = 3 / 10 ^ 8) ∧
    (20 ≤ update_count → chuzcTa update_count = 1 / 10 ^ 6) := by
  refine ⟨?_, ?_, ?_, ?_⟩
  · have h := choosePossible_fold (chuzcTa update_count) Td
      (chuzcTa_pos update_count) (if workDelta < 0 then -1 else 1)
      workMove workDual pack ⟨[], none⟩ (by simp [chuzcRatios, listMinQ])
    exact ⟨by simpa [choosePossible] using h.1,
      by simpa [choosePossible] using h.2⟩
  · intro h; simp [chuzcTa, h]
  · intro h1 h2; simp [chuzcTa, h2, Nat.not_lt.mpr h1]
  · intro h
    have h1 : ¬ update_count < 10 := by omega
    have h2 : ¬ update_count < 20 := by omega
    simp [chuzcTa, h1, h2]

/-- Witness for `choosePossible_candidates_theta`: the tier hypotheses
discharged at the concrete update counts 5, 15 and 25. -/
theorem choosePossible_candidates_theta_witness :
    chuzcTa 5 = 1 / 10 ^ 9 ∧ chuzcTa 15 = 3 / 10 ^ 8 ∧
      chuzcTa 25 = 1 / 10 ^ 6 :=
  ⟨(choosePossible_candidates_theta [] (fun _ => 1) (fun _ => 0) 5 0
      0).2.1 (by norm_num),
   (choosePossible_candidates_theta [] (fun _ => 1) (fun _ => 0) 15 0
      0).2.2.1 (by norm_num) (by norm_num),
   (choosePossible_candidates_theta [] (fun _ => 1) (fun _ => 0) 25 0
      0).2.2.2 (by norm_num)⟩

/-! ### Bound cleaning after presolve (`cleanBounds`, HighsLpUtils.cpp) -/

/-- The bound vectors of an LP that `cleanBounds` touches. -/
structure CleanLp where
  col_lower : List ℚ
  col_upper : List ℚ
  row_lower : List ℚ
  row_upper : List ℚ
deriving DecidableEq

/-- One of the two loops of `cleanBounds` (HighsLpUtils.cpp), over parallel
lower/upper lists: a residual `lower - upper` beyond the tolerance aborts with
an error (leaving the remaining entries untouched); a positive residual within
tolerance replaces both bounds by the midpoint `0.5*(lower+upper)` and counts
the change. -/
def cleanBoundsGo (tol : ℚ) : List ℚ → List ℚ → Bool × List ℚ × List ℚ × ℕ
  | [], us => (false, [], us, 0)
  | l :: ls, [] => (false, l :: ls, [], 0)
  | l :: ls, u :: us =>
    if tol < l - u then (true, l :: ls, u :: us, 0)
    else if 0 < l - u then
      let m := (1 / 2 : ℚ) * (l + u)
      let r := cleanBoundsGo tol ls us
      (r.1, m :: r.2.1, m :: r.2.2.1, r.2.2.2 + 1)
    else
      let r := cleanBoundsGo tol ls us
      (r.1, l :: r.2.1, u :: r.2.2.1, r.2.2.2)

/-- `cleanBounds` (HighsLpUtils.cpp): clean the column bounds, returning
`kError` on a residual beyond `primal_feasibility_tolerance`, then the row
bounds likewise; return `kWarning` if any bound was collapsed to a midpoint
and `kOk` otherwise. -/
def cleanBounds (tol : ℚ) (lp : CleanLp) : HighsStatus × CleanLp :=
  let rc := cleanBoundsGo tol lp.col_lower lp.col_upper
  if rc.1 then
    (HighsStatus.kError,
      { lp with col_lower := rc.2.1, col_upper := rc.2.2.1 })
  else
    let rr := cleanBoundsGo tol lp.row_lower lp.row_upper
    if rr.1 then
      (HighsStatus.kError,
        { col_lower := rc.2.1, col_upper := rc.2.2.1,
          row_lower := rr.2.1, row_upper := rr.2.2.1 })
    else if 0 < rc.2.2.2 + rr.2.2.2 then
      (HighsStatus.kWarning,
        { col_lower := rc.2.1, col_upper := rc.2.2.1,
          row_lower := rr.2.1, row_upper := rr.2.2.1 })
    else
      (HighsStatus.kOk,
        { col_lower := rc.2.1, col_upper := rc.2.2.1,
          row_lower := rr.2.1, row_upper := rr.2.2.1 })

/-- The loop of `cleanBounds` reports an error exactly when some pair has a
residual beyond the tolerance. -/
theorem cleanBoundsGo_error_iff (tol : ℚ) (ls : List ℚ) :
    ∀ us : List ℚ,
      ((cleanBoundsGo tol ls us).1 = true ↔
        ∃ p ∈ ls.zip us, tol < p.1 - p.2) := by
  induction ls with
  | nil => intro us; simp [cleanBoundsGo]
  | cons l ls ih =>
    intro us
    cases us with
    | nil => simp [cleanBoundsGo]
    | cons u us =>
      simp only [cleanBoundsGo]
      by_cases h1 : tol < l - u
      · rw [if_pos h1]
        simp [h1]
      · rw [if_neg h1]
        by_cases h2 : 0 < l - u
        · rw [if_pos h2]
          simp only [List.zip_cons_cons, List.exists_mem_cons_iff]
          rw [← ih us]
          simp [h1]
        · rw [if_neg h2]
          simp only [List.zip_cons_cons, List.exists_mem_cons_iff]
          rw [← ih us]
          simp [h1]

/-- When the loop of `cleanBounds` reports no error, it maps every pair with
positive residual to its midpoint, leaves the rest, and counts the changes. -/
theorem cleanBoundsGo_ok (tol : ℚ) (ls : List ℚ) :
    ∀ us : List ℚ, (cleanBoundsGo tol ls us).1 = false →
      (cleanBoundsGo tol ls us).2.1 =
        (ls.zip us).map
          (fun p => if 0 < p.1 - p.2 then (1 / 2 : ℚ) * (p.1 + p.2) else p.1)
          ++ ls.drop us.length ∧
      (cleanBoundsGo tol ls us).2.2.1 =
        (ls.zip us).map
          (fun p => if 0 < p.1 - p.2 then (1 / 2 : ℚ) * (p.1 + p.2) else p.2)
          ++ us.drop ls.length ∧
      (cleanBoundsGo tol ls us).2.2.2 =
        (ls.zip us).countP (fun p => decide (0 < p.1 - p.2)) := by
  induction ls with
  | nil => intro us herr; simp [cleanBoundsGo]
  | cons l ls ih =>
    intro us
    cases us with
    | nil => intro herr; simp [cleanBoundsGo]
    | cons u us =>
      simp only [cleanBoundsGo]
      by_cases h1 : tol < l - u
      · rw [if_pos h1]; intro herr; cases herr
      · rw [if_neg h1]
        by_cases h2 : 0 < l - u
        · rw [if_pos h2]
          simp only [List.zip_cons_cons, List.map_cons, List.countP_cons,
            List.drop_succ_cons, List.length_cons]
          intro herr
          obtain ⟨e1, e2, e3⟩ := ih us herr
          rw [e1, e2, e3]
          simp [h2]
        · rw [if_neg h2]
          simp only [List.zip_cons_cons, List.map_cons, List.countP_cons,
            List.drop_succ_cons, List.length_cons]
          intro herr
          obtain ⟨e1, e2, e3⟩ := ih us herr
          rw [e1, e2, e3]
          simp [h2]

/-- C4: `cleanBounds` returns `kError` when some column or row has
`lower - upper` beyond the primal feasibility tolerance; when every
inconsistency is positive but within tolerance it collapses each inconsistent
pair to its midpoint `(lower+upper)/2` and returns `kWarning`; and when
`lower ≤ upper` holds everywhere it returns `kOk` with all bounds
unchanged. -/
theorem cleanBounds_cases (tol : ℚ) (lp : CleanLp) (htol : 0 ≤ tol)
    (hc : lp.col_lower.length = lp.col_upper.length)
    (hr : lp.row_lower.length = lp.row_upper.length) :
    ((∃ p ∈ lp.col_lower.zip lp.col_upper ++ lp.row_lower.zip lp.row_upper,
        tol < p.1 - p.2) →
      (cleanBounds tol lp).1 = HighsStatus.kError) ∧
    ((∀ p ∈ lp.col_lower.zip lp.col_upper ++ lp.row_lower.zip lp.row_upper,
        p.1 - p.2 ≤ tol) →
     (∃ p ∈ lp.col_lower.zip lp.col_upper ++ lp.row_lower.zip lp.row_upper,
        0 < p.1 - p.2) →
      (cleanBounds tol lp).1 = HighsStatus.kWarning ∧
      (cleanBounds tol lp).2.col_lower =
        (lp.col_lower.zip lp.col_upper).map
          (fun p => if 0 < p.1 - p.2 then (p.1 + p.2) / 2 else p.1) ∧
      (cleanBounds tol lp).2.col_upper =
        (lp.col_lower.zip lp.col_upper).map
          (fun p => if 0 < p.1 - p.2 then (p.1 + p.2) / 2 else p.2) ∧
      (cleanBounds tol lp).2.row_lower =
        (lp.row_lower.zip lp.row_upper).map
          (fun p => if 0 < p.1 - p.2 then (p.1 + p.2) / 2 else p.1) ∧
      (cleanBounds tol lp).2.row_upper =
        (lp.row_lower.zip lp.row_upper).map
          (fun p => if 0 < p.1 - p.2 then (p.1 + p.2) / 2 else p.2)) ∧
    ((∀ p ∈ lp.col_lower.zip lp.col_upper ++ lp.row_lower.zip lp.row_upper,
        p.1 ≤ p.2) →
      (cleanBounds tol lp).1 = HighsStatus.kOk ∧
      (cleanBounds tol lp).2 = lp) := by
  have hmid1 : ∀ zs : List (ℚ × ℚ),
      zs.map (fun p => if 0 < p.1 - p.2 then (1 / 2 : ℚ) * (p.1 + p.2) else p.1) =
      zs.map (fun p => if 0 < p.1 - p.2 then (p.1 + p.2) / 2 else p.1) := by
    intro zs; congr 1; funext p; split_ifs <;> ring
  have hmid2 : ∀ zs : List (ℚ × ℚ),
      zs.map (fun p => if 0 < p.1 - p.2 then (1 / 2 : ℚ) * (p.1 + p.2) else p.2) =
      zs.map (fun p => if 0 < p.1 - p.2 then (p.1 + p.2) / 2 else p.2) := by
    intro zs; congr 1; funext p; split_ifs <;> ring
  have hdropc : lp.col_lower.drop lp.col_upper.length = [] :=
    List.drop_eq_nil_of_le (le_of_eq hc)
  have hdropc' : lp.col_upper.drop lp.col_lower.length = [] :=
    List.drop_eq_nil_of_le (le_of_eq hc.symm)
  have hdropr : lp.row_lower.drop lp.row_upper.length = [] :=
    List.drop_eq_nil_of_le (le_of_eq hr)
  have hdropr' : lp.row_upper.drop lp.row_lower.length = [] :=
    List.drop_eq_nil_of_le (le_of_eq hr.symm)
  refine ⟨?_, ?_, ?_⟩
  · rintro ⟨p, hp, hgt⟩
    rcases List.mem_append.mp hp with hcp | hrp
    · have herr : (cleanBoundsGo tol lp.col_lower lp.col_upper).1 = true :=
        (cleanBoundsGo_error_iff tol lp.col_lower lp.col_upper).mpr
          ⟨p, hcp, hgt⟩
      simp [cleanBounds, herr]
    · by_cases hbc : (cleanBoundsGo tol lp.col_lower lp.col_upper).1 = true
      · simp [cleanBounds, hbc]
      · have hbc' : (cleanBoundsGo tol lp.col_lower lp.col_upper).1 = false :=
          Bool.not_eq_true _ ▸ hbc
        have herr : (cleanBoundsGo tol lp.row_lower lp.row_upper).1 = true :=
          (cleanBoundsGo_error_iff tol lp.row_lower lp.row_upper).mpr
            ⟨p, hrp, hgt⟩
        simp [cleanBounds, hbc', herr]
  · intro hall hex
    have hcf : (cleanBoundsGo tol lp.col_lower lp.col_upper).1 = false := by
      rcases hb : (cleanBoundsGo tol lp.col_lower lp.col_upper).1 with _ | _
      · rfl
      · obtain ⟨p, hp, hgt⟩ :=
          (cleanBoundsGo_error_iff tol lp.col_lower lp.col_upper).mp hb
        exact absurd hgt (not_lt.mpr (hall p (List.mem_append_left _ hp)))
    have hrf : (cleanBoundsGo tol lp.row_lower lp.row_upper).1 = false := by
      rcases hb : (cleanBoundsGo tol lp.row_lower lp.row_upper).1 with _ | _
      · rfl
      · obtain ⟨p, hp, hgt⟩ :=
          (cleanBoundsGo_error_iff tol lp.row_lower lp.row_upper).mp hb
        exact absurd hgt (not_lt.mpr (hall p (List.mem_append_right _ hp)))
    obtain ⟨ec1, ec2, ec3⟩ := cleanBoundsGo_ok tol lp.col_lower lp.col_upper hcf
    obtain ⟨er1, er2, er3⟩ := cleanBoundsGo_ok tol lp.row_lower lp.row_upper hrf
    have hcount : 0 < (cleanBoundsGo tol lp.col_lower lp.col_upper).2.2.2 +
        (cleanBoundsGo tol lp.row_lower lp.row_upper).2.2.2 := by
      obtain ⟨p, hp, hpos⟩ := hex
      rcases List.mem_append.mp hp with hcp | hrp
      · have : 0 < (cleanBoundsGo tol lp.col_lower lp.col_upper).2.2.2 := by
          rw [ec3]
          exact List.countP_pos.mpr ⟨p, hcp, by simpa using hpos⟩
        omega
      · have : 0 < (cleanBoundsGo tol lp.row_lower lp.row_upper).2.2.2 := by
          rw [er3]
          exact List.countP_pos.mpr ⟨p, hrp, by simpa using hpos⟩
        omega
    refine ⟨by simp [cleanBounds, hcf, hrf, hcount], ?_, ?_, ?_, ?_⟩ <;>
      simp only [cleanBounds, hcf, hrf, hcount, if_pos, Bool.false_eq_true,
        if_false, if_true] <;>
      simp [ec1, ec2, er1, er2, hdropc, hdropc', hdropr, hdropr',
        hmid1, hmid2, hcount] <;>
      (intro a b _; split_ifs <;> ring)
  · intro hall
    have hall' : ∀ p ∈ lp.col_lower.zip lp.col_upper ++
        lp.row_lower.zip lp.row_upper, ¬ (0 < p.1 - p.2) := by
      intro p hp
      have := hall p hp
      simp only [not_lt]
      linarith
    have hcf : (cleanBoundsGo tol lp.col_lower lp.col_upper).1 = false := by
      rcases hb : (cleanBoundsGo tol lp.col_lower lp.col_upper).1 with _ | _
      · rfl
      · obtain ⟨p, hp, hgt⟩ :=
          (cleanBoundsGo_error_iff tol lp.col_lower lp.col_upper).mp hb
        have := hall p (List.mem_append_left _ hp)
        exact absurd hgt (not_lt.mpr (by linarith))
    have hrf : (cleanBoundsGo tol lp.row_lower lp.row_upper).1 = false := by
      rcases hb : (cleanBoundsGo tol lp.row_lower lp.row_upper).1 with _ | _
      · rfl
      · obtain ⟨p, hp, hgt⟩ :=
          (cleanBoundsGo_error_iff tol lp.row_lower lp.row_upper).mp hb
        have := hall p (List.mem_append_right _ hp)
        exact absurd hgt (not_lt.mpr (by linarith))
    obtain ⟨ec1, ec2, ec3⟩ := cleanBoundsGo_ok tol lp.col_lower lp.col_upper hcf
    obtain ⟨er1, er2, er3⟩ := cleanBoundsGo_ok tol lp.row_lower lp.row_upper hrf
    have hc0 : (cleanBoundsGo tol lp.col_lower lp.col_upper).2.2.2 = 0 := by
      rw [ec3]
      exact List.countP_eq_zero.mpr (fun p hp => by
        simpa using hall' p (List.mem_append_left _ hp))
    have hr0 : (cleanBoundsGo tol lp.row_lower lp.row_upper).2.2.2 = 0 := by
      rw [er3]
      exact List.countP_eq_zero.mpr (fun p hp => by
        simpa using hall' p (List.mem_append_right _ hp))
    have hzero : ¬ 0 < (cleanBoundsGo tol lp.col_lower lp.col_upper).2.2.2 +
        (cleanBoundsGo tol lp.row_lower lp.row_upper).2.2.2 := by
      omega
    have hid1 : (cleanBoundsGo tol lp.col_lower lp.col_upper).2.1 =
        lp.col_lower := by
      rw [ec1, hdropc, List.append_nil]
      rw [List.map_congr_left (fun p hp => by
        rw [if_neg (hall' p (List.mem_append_left _ hp))])]
      exact List.map_fst_zip _ _ (le_of_eq hc)
    have hid2 : (cleanBoundsGo tol lp.col_lower lp.col_upper).2.2.1 =
        lp.col_upper := by
      rw [ec2, hdropc', List.append_nil]
      rw [List.map_congr_left (fun p hp => by
        rw [if_neg (hall' p (List.mem_append_left _ hp))])]
      exact List.map_snd_zip _ _ (le_of_eq hc.symm)
    have hid3 : (cleanBoundsGo tol lp.row_lower lp.row_upper).2.1 =
        lp.row_lower := by
      rw [er1, hdropr, List.append_nil]
      rw [List.map_congr_left (fun p hp => by
        rw [if_neg (hall' p (List.mem_append_right _ hp))])]
      exact List.map_fst_zip _ _ (le_of_eq hr)
    have hid4 : (cleanBoundsGo tol lp.row_lower lp.row_upper).2.2.1 =
        lp.row_upper := by
      rw [er2, hdropr', List.append_nil]
      rw [List.map_congr_left (fun p hp => by
        rw [if_neg (hall' p (List.mem_append_right _ hp))])]
      exact List.map_snd_zip _ _ (le_of_eq hr.symm)
    have hcb : cleanBounds tol lp = (HighsStatus.kOk,
        { col_lower := (cleanBoundsGo tol lp.col_lower lp.col_upper).2.1,
          col_upper := (cleanBoundsGo tol lp.col_lower lp.col_upper).2.2.1,
          row_lower := (cleanBoundsGo tol lp.row_lower lp.row_upper).2.1,
          row_upper := (cleanBoundsGo tol lp.row_lower lp.row_upper).2.2.1 }) := by
      simp [cleanBounds, hcf, hrf, hzero]
    rw [hcb]
    refine ⟨rfl, ?_⟩
    show CleanLp.mk _ _ _ _ = lp
    rw [hid1, hid2, hid3, hid4]

/-- Witness for `cleanBounds_cases` on a concrete consistent LP, discharging
the hypotheses of its third conjunct. -/
theorem cleanBounds_cases_witness :
    (cleanBounds 1 ⟨[0], [1], [2], [3]⟩).1 = HighsStatus.kOk ∧
    (cleanBounds 1 ⟨[0], [1], [2], [3]⟩).2 = ⟨[0], [1], [2], [3]⟩ :=
  (cleanBounds_cases 1 ⟨[0], [1], [2], [3]⟩ (by norm_num) rfl rfl).2.2
    (by intro p hp; fin_cases hp <;> norm_num)

/-! ### Basis files (`writeBasisFile` / `readBasisFile`, HighsLpUtils.cpp) -/

/-- The `HighsBasis` fields the basis file functions touch: the validity flag
and the column/row status vectors (statuses are stored as their integer
codes, which is how the file records them). -/
structure HighsBasis where
  valid : Bool
  col_status : List ℤ
  row_status : List ℤ
deriving DecidableEq

/-- Modelled from the spec: `HIGHS_VERSION_MAJOR` comes from the generated
build-configuration header, which is not among the sources; the spec's basis
file starts `"HiGHS Version" <int>` and its round-trip property requires the
written version line to be the one the reader accepts, namely `1`. -/
def HIGHS_VERSION_MAJOR : ℤ := 1

/-- A basis file: the two header words, the stream of integer tokens
(version, sizes, statuses), and whether trailing whitespace follows the last
token (the writer always emits a trailing blank and newlines, so a reader
that consumes exactly the tokens has not touched end-of-file). -/
structure BasisFile where
  word1 : String
  word2 : String
  tokens : List ℤ
  trailingWs : Bool
deriving DecidableEq

/-- The file produced by `writeBasisFile` for a valid basis: the header
`"HiGHS Version" <major>`, the two sizes, the column statuses, then the row
statuses, with trailing whitespace. -/
def basisFileOf (basis : HighsBasis) : BasisFile :=
  { word1 := "HiGHS", word2 := "Version",
    tokens := HIGHS_VERSION_MAJOR :: (basis.col_status.length : ℤ) ::
      (basis.row_status.length : ℤ) ::
      (basis.col_status ++ basis.row_status),
    trailingWs := true }

/-- `writeBasisFile` (HighsLpUtils.cpp): refuse to write an invalid basis;
otherwise emit the basis file and return `kOk`.  (The model's file system is
always writable; an unopenable file is an I/O failure outside the model.) -/
def writeBasisFile (basis : HighsBasis) : HighsStatus × Option BasisFile :=
  if basis.valid = false then (HighsStatus.kError, none)
  else (HighsStatus.kOk, some (basisFileOf basis))

/-- Position of an input stream: the remaining tokens and whether a read has
already run past the end of the stream. -/
structure ReadState where
  rest : List ℤ
  hitEnd : Bool
deriving DecidableEq

/-- One formatted integer read (`inFile >> int_status`): take the next token,
or flag the end of the stream (the C++ stream then leaves a zero). -/
def readInt : ReadState → ℤ × ReadState
  | ⟨[], _⟩ => (0, ⟨[], true⟩)
  | ⟨t :: r, h⟩ => (t, ⟨r, h⟩)

/-- The status-reading loop of `readBasisFile`: read `n` integers, storing
them at positions `i, i+1, …` of the destination vector. -/
def readN : ℕ → ℕ → List ℤ → ReadState → List ℤ × ReadState
  | 0, _, dest, s => (dest, s)
  | n + 1, i, dest, s =>
    let r := readInt s
    readN n (i + 1) (dest.set i r.1) r.2

/-- `inFile.eof()` after the reads: set if some read ran past the end, or if
the tokens are exhausted with no trailing whitespace left in the file. -/
def fileEof (f : BasisFile) (s : ReadState) : Bool :=
  s.hitEnd || (s.rest.isEmpty && !f.trailingWs)

/-- `readBasisFile` (HighsLpUtils.cpp): consume the header, accept only
version 1, reject a size mismatch against the host basis before touching it,
then overwrite the host's column and row statuses and fail if end-of-file was
reached before the basis was complete. -/
def readBasisFile (basis : HighsBasis) (f : BasisFile) :
    HighsStatus × HighsBasis :=
  let s0 : ReadState := ⟨f.tokens, false⟩
  let r1 := readInt s0
  if r1.1 = 1 then
    let r2 := readInt r1.2
    let r3 := readInt r2.2
    if r2.1 ≠ (basis.col_status.length : ℤ) then (HighsStatus.kError, basis)
    else if r3.1 ≠ (basis.row_status.length : ℤ) then
      (HighsStatus.kError, basis)
    else
      let rc := readN r2.1.toNat 0 basis.col_status r3.2
      let rr := readN r3.1.toNat 0 basis.row_status rc.2
      let basis' : HighsBasis :=
        { basis with col_status := rc.1, row_status := rr.1 }
      if fileEof f rr.2 then (HighsStatus.kError, basis')
      else (HighsStatus.kOk, basis')
  else (HighsStatus.kError, basis)

/-- Setting an element and taking one past it appends the new value to the
prefix. -/
theorem list_take_set (l : List ℤ) :
    ∀ (i : ℕ) (v : ℤ), i < l.length →
      (l.set i v).take (i + 1) = l.take i ++ [v] := by
  induction l with
  | nil => intro i v h; cases h
  | cons a l ih =>
    intro i v h
    cases i with
    | zero => simp
    | succ i =>
      simp only [List.set_cons_succ, List.take_succ_cons, List.take_cons_succ]
      rw [ih i v (by simpa using h)]
      rfl

/-- Setting an element below a drop point leaves the dropped suffix
unchanged. -/
theorem list_drop_set (l : List ℤ) :
    ∀ (i j : ℕ) (v : ℤ), i < j → (l.set i v).drop j = l.drop j := by
  induction l with
  | nil => intro i j v _; simp
  | cons a l ih =>
    intro i j v h
    cases i with
    | zero =>
      cases j with
      | zero => cases h
      | succ j => simp
    | succ i =>
      cases j with
      | zero => cases h
      | succ j =>
        simp only [List.set_cons_succ, List.drop_succ_cons]
        exact ih i j v (by omega)

/-- The status-reading loop overwrites positions `k, …, k+n-1` with the next
`n` stream tokens and consumes exactly those tokens. -/
theorem readN_spec (vals : List ℤ) :
    ∀ (k : ℕ) (dest rest : List ℤ) (ws : Bool),
      k + vals.length ≤ dest.length →
      readN vals.length k dest ⟨vals ++ rest, ws⟩ =
        (dest.take k ++ vals ++ dest.drop (k + vals.length), ⟨rest, ws⟩) := by
  induction vals with
  | nil =>
    intro k dest rest ws _
    simp [readN]
  | cons v vs ih =>
    intro k dest rest ws h
    have hk : k < dest.length := by
      simp only [List.length_cons] at h; omega
    show readN (vs.length + 1) k dest ⟨v :: (vs ++ rest), ws⟩ = _
    simp only [readN, readInt]
    rw [ih (k + 1) (dest.set k v) rest ws
      (by simp only [List.length_set]; simp only [List.length_cons] at h; omega)]
    rw [list_take_set dest k v hk,
      list_drop_set dest k (k + 1 + vs.length) v (by omega)]
    have harith : k + 1 + vs.length = k + (vs.length + 1) := by omega
    rw [harith]
    simp [List.append_assoc]

/-- Reading as many tokens as the destination holds replaces it entirely. -/
theorem readN_all (vals dest rest : List ℤ) (ws : Bool)
    (h : dest.length = vals.length) :
    readN vals.length 0 dest ⟨vals ++ rest, ws⟩ = (vals, ⟨rest, ws⟩) := by
  rw [readN_spec vals 0 dest rest ws (by omega)]
  simp [h]

/-- C3: for every valid basis `B`, `writeBasisFile` returns `kOk` together
with the basis file, and `readBasisFile` of that file into a basis with
matching status-vector sizes returns `kOk` and installs exactly the column
and row statuses of `B`. -/
theorem writeBasis_readBasis_roundtrip (B b0 : HighsBasis)
    (hvalid : B.valid = true)
    (hc : b0.col_status.length = B.col_status.length)
    (hr : b0.row_status.length = B.row_status.length) :
    writeBasisFile B = (HighsStatus.kOk, some (basisFileOf B)) ∧
    (readBasisFile b0 (basisFileOf B)).1 = HighsStatus.kOk ∧
    (readBasisFile b0 (basisFileOf B)).2.col_status = B.col_status ∧
    (readBasisFile b0 (basisFileOf B)).2.row_status = B.row_status := by
  have hwrite : writeBasisFile B = (HighsStatus.kOk, some (basisFileOf B)) := by
    simp [writeBasisFile, hvalid]
  have hread : readBasisFile b0 (basisFileOf B) = (HighsStatus.kOk,
      { b0 with col_status := B.col_status, row_status := B.row_status }) := by
    have hcZ : ((B.col_status.length : ℕ) : ℤ) =
        ((b0.col_status.length : ℕ) : ℤ) := by exact_mod_cast hc.symm
    have hrZ : ((B.row_status.length : ℕ) : ℤ) =
        ((b0.row_status.length : ℕ) : ℤ) := by exact_mod_cast hr.symm
    have hcols : readN b0.col_status.length 0 b0.col_status
        ⟨B.col_status ++ B.row_status, false⟩ =
        (B.col_status, ⟨B.row_status, false⟩) := by
      rw [hc]
      exact readN_all B.col_status b0.col_status B.row_status false hc
    have hrows : readN b0.row_status.length 0 b0.row_status
        ⟨B.row_status, false⟩ = (B.row_status, ⟨[], false⟩) := by
      rw [hr]
      have := readN_all B.row_status b0.row_status [] false hr
      rwa [List.append_nil] at this
    simp only [readBasisFile, basisFileOf, HIGHS_VERSION_MAJOR, readInt,
      hcZ, hrZ]
    simp [hcols, hrows, fileEof]
  exact ⟨hwrite, by rw [hread], by rw [hread], by rw [hread]⟩

/-- Witness for `writeBasis_readBasis_roundtrip` at a concrete valid basis,
read back into a host basis of the same dimensions. -/
theorem writeBasis_readBasis_roundtrip_witness :
    writeBasisFile ⟨true, [1, 2], [0]⟩ =
      (HighsStatus.kOk, some (basisFileOf ⟨true, [1, 2], [0]⟩)) ∧
    (readBasisFile ⟨false, [0, 0], [9]⟩
        (basisFileOf ⟨true, [1, 2], [0]⟩)).1 = HighsStatus.kOk ∧
    (readBasisFile ⟨false, [0, 0], [9]⟩
        (basisFileOf ⟨true, [1, 2], [0]⟩)).2.col_status = [1, 2] ∧
    (readBasisFile ⟨false, [0, 0], [9]⟩
        (basisFileOf ⟨true, [1, 2], [0]⟩)).2.row_status = [0] :=
  writeBasis_readBasis_roundtrip ⟨true, [1, 2], [0]⟩ ⟨false, [0, 0], [9]⟩
    rfl rfl rfl

/-! ### Coefficient upsert (`changeLpMatrixCoefficient`, HighsLpUtils.cpp) -/

/-- The LP fields `changeLpMatrixCoefficient` touches: the dimensions and the
CSC matrix arrays. -/
structure MatrixLp where
  num_col : ℤ
  num_row : ℤ
  a_start : List ℤ
  a_index : List ℤ
  a_value : List ℚ
deriving DecidableEq

/-- The search loop of `changeLpMatrixCoefficient`: scan the element range of
the column (given by its length, the fuel) for an entry with the wanted row
index. -/
def findRowEl (a_index : List ℤ) (row : ℤ) : ℕ → ℕ → Option ℕ
  | _, 0 => none
  | el, n + 1 =>
    if a_index.getD el 0 = row then some el
    else findRowEl a_index row (el + 1) n

/-- `changeLpMatrixCoefficient` (HighsLpUtils.cpp): reject `row < 0` or
`row > num_row` (and likewise for columns) — note the non-strict upper
comparison of the source — then overwrite the entry for `row` in column
`col` if present, and otherwise insert it at the end of the column,
shifting the later entries and bumping `start[col+1..num_col]`. -/
def changeLpMatrixCoefficient (lp : MatrixLp) (row col : ℤ)
    (new_value : ℚ) : HighsStatus × MatrixLp :=
  if row < 0 ∨ lp.num_row < row then (HighsStatus.kError, lp)
  else if col < 0 ∨ lp.num_col < col then (HighsStatus.kError, lp)
  else
    let s := (lp.a_start.getD col.toNat 0).toNat
    let e := (lp.a_start.getD (col.toNat + 1) 0).toNat
    match findRowEl lp.a_index row s (e - s) with
    | some el =>
      (HighsStatus.kOk,
        { lp with a_index := lp.a_index.set el row,
                  a_value := lp.a_value.set el new_value })
    | none =>
      (HighsStatus.kOk,
        { lp with
          a_start := List.zipWith
            (fun i v =>
              if col + 1 ≤ (i : ℤ) ∧ (i : ℤ) ≤ lp.num_col then v + 1 else v)
            (List.range lp.a_start.length) lp.a_start,
          a_index := lp.a_index.take e ++ row :: lp.a_index.drop e,
          a_value := lp.a_value.take e ++ new_value :: lp.a_value.drop e })

/-- C6 failing input: on a 1-row, 1-column LP, `changeLpMatrixCoefficient`
accepts the out-of-range row index `1` (valid rows are only `{0}`): the
boundary check uses `row > num_row` instead of `row >= num_row`, so the call
returns `kOk` and inserts a coefficient with row index `num_row`, changing
the LP. -/
theorem changeLpMatrixCoefficient_accepts_row_eq_num_row :
    ¬ ((1 : ℤ) < (1 : ℤ)) ∧
    (changeLpMatrixCoefficient ⟨1, 1, [0, 0], [], []⟩ 1 0 5).1 =
      HighsStatus.kOk ∧
    (changeLpMatrixCoefficient ⟨1, 1, [0, 0], [], []⟩ 1 0 5).2 ≠
      ⟨1, 1, [0, 0], [], []⟩ ∧
    (changeLpMatrixCoefficient ⟨1, 1, [0, 0], [], []⟩ 1 0 5).2.a_index =
      [1] := by
  refine ⟨by decide, ?_, ?_, ?_⟩ <;> decide

/-! ### Pseudocost observations (`HighsPseudocost::addObservation`,
HighsPseudocost.h) -/

/-- The `HighsPseudocost` fields `addObservation` touches. -/
structure PseudocostState where
  pseudocostup : ℕ → ℚ
  pseudocostdown : ℕ → ℚ
  nsamplesup : ℕ → ℕ
  nsamplesdown : ℕ → ℕ
  cost_total : ℚ
  nsamplestotal : ℕ

/-- Modelled from the spec: the constructor `HighsPseudocost(mipsolver)` is
in HighsPseudocost.cpp, which is not among the sources; the spec describes
per-column running averages with sample counts and global averages, all
starting from zero samples. -/
def initPseudocost : PseudocostState :=
  ⟨fun _ => 0, fun _ => 0, fun _ => 0, fun _ => 0, 0, 0⟩

/-- `HighsPseudocost::addObservation` (HighsPseudocost.h): for `delta > 0`
add the sample `objdelta/delta` to the running average `pseudocostup[col]`,
otherwise add `-objdelta/delta` to `pseudocostdown[col]`; in both cases the
sample also enters the global running average `cost_total`. -/
def addObservation (s : PseudocostState) (col : ℕ) (delta objdelta : ℚ) :
    PseudocostState :=
  if 0 < delta then
    let unit_gain := objdelta / delta
    let nup := s.nsamplesup col + 1
    let ntot := s.nsamplestotal + 1
    { s with
      nsamplesup := Function.update s.nsamplesup col nup,
      pseudocostup := Function.update s.pseudocostup col
        (s.pseudocostup col + (unit_gain - s.pseudocostup col) / (nup : ℚ)),
      nsamplestotal := ntot,
      cost_total := s.cost_total + (unit_gain - s.cost_total) / (ntot : ℚ) }
  else
    let unit_gain := -objdelta / delta
    let ndown := s.nsamplesdown col + 1
    let ntot := s.nsamplestotal + 1
    { s with
      nsamplesdown := Function.update s.nsamplesdown col ndown,
      pseudocostdown := Function.update s.pseudocostdown col
        (s.pseudocostdown col +
          (unit_gain - s.pseudocostdown col) / (ndown : ℚ)),
      nsamplestotal := ntot,
      cost_total := s.cost_total + (unit_gain - s.cost_total) / (ntot : ℚ) }

/-- A sequence of observations `(col, delta, objdelta)` applied to the fresh
pseudocost state. -/
def applyObservations (obs : List (ℕ × ℚ × ℚ)) : PseudocostState :=
  obs.foldl (fun s o => addObservation s o.1 o.2.1 o.2.2) initPseudocost

/-- The up-branch samples `objdelta/delta` a column receives. -/
def upSamples (obs : List (ℕ × ℚ × ℚ)) (col : ℕ) : List ℚ :=
  (obs.filter (fun o => decide (o.1 = col ∧ 0 < o.2.1))).map
    (fun o => o.2.2 / o.2.1)

/-- The down-branch samples `-objdelta/delta` a column receives. -/
def downSamples (obs : List (ℕ × ℚ × ℚ)) (col : ℕ) : List ℚ :=
  (obs.filter (fun o => decide (o.1 = col ∧ o.2.1 < 0))).map
    (fun o => -o.2.2 / o.2.1)

/-- All samples, over all columns, in observation order. -/
def allSamples (obs : List (ℕ × ℚ × ℚ)) : List ℚ :=
  obs.map (fun o => if 0 < o.2.1 then o.2.2 / o.2.1 else -o.2.2 / o.2.1)

/-- Arithmetic mean of a list of rationals, zero for the empty list. -/
def meanQ (l : List ℚ) : ℚ := if l = [] then 0 else l.sum / (l.length : ℚ)

/-- Unfolding `upSamples` over the head observation. -/
theorem upSamples_cons (o : ℕ × ℚ × ℚ) (rest : List (ℕ × ℚ × ℚ)) (c : ℕ) :
    upSamples (o :: rest) c =
      (if o.1 = c ∧ 0 < o.2.1 then [o.2.2 / o.2.1] else []) ++
        upSamples rest c := by
  simp only [upSamples, List.filter_cons]
  by_cases h : o.1 = c ∧ 0 < o.2.1 <;> simp [h]

/-- Unfolding `downSamples` over the head observation. -/
theorem downSamples_cons (o : ℕ × ℚ × ℚ) (rest : List (ℕ × ℚ × ℚ)) (c : ℕ) :
    downSamples (o :: rest) c =
      (if o.1 = c ∧ o.2.1 < 0 then [-o.2.2 / o.2.1] else []) ++
        downSamples rest c := by
  simp only [downSamples, List.filter_cons]
  by_cases h : o.1 = c ∧ o.2.1 < 0 <;> simp [h]

/-- Appending a sample moves the mean by `(x - mean)/(n+1)` — the running
average recurrence of `addObservation`. -/
theorem meanQ_append (l : List ℚ) (x : ℚ) :
    meanQ (l ++ [x]) = meanQ l + (x - meanQ l) / ((l.length : ℚ) + 1) := by
  rcases eq_or_ne l [] with rfl | hne
  · simp [meanQ]
  · have hpos : 0 < l.length := List.length_pos.mpr hne
    have hlen : ((l.length : ℚ)) ≠ 0 := by positivity
    have hlen1 : ((l.length : ℚ)) + 1 ≠ 0 := by positivity
    simp only [meanQ, if_neg hne, if_neg (by simp : ¬ l ++ [x] = []),
      List.sum_append, List.length_append, List.sum_cons, List.sum_nil,
      List.length_cons, List.length_nil]
    push_cast
    field_simp
    ring

/-- The state invariant tying `addObservation`'s running averages to the
sample lists accumulated so far. -/
def PcInv (s : PseudocostState) (su sd : ℕ → List ℚ) (st : List ℚ) : Prop :=
  (∀ c, s.nsamplesup c = (su c).length) ∧
  (∀ c, s.nsamplesdown c = (sd c).length) ∧
  (∀ c, s.pseudocostup c = meanQ (su c)) ∧
  (∀ c, s.pseudocostdown c = meanQ (sd c)) ∧
  s.nsamplestotal = st.length ∧
  s.cost_total = meanQ st

/-- One `addObservation` call preserves the running-average invariant,
appending the new sample to the lists of its column and to the global
list. -/
theorem addObservation_inv (s : PseudocostState) (su sd : ℕ → List ℚ)
    (st : List ℚ) (col : ℕ) (delta objdelta : ℚ) (hδ : delta ≠ 0)
    (h : PcInv s su sd st) :
    PcInv (addObservation s col delta objdelta)
      (fun c => su c ++ if col = c ∧ 0 < delta then [objdelta / delta] else [])
      (fun c => sd c ++ if col = c ∧ delta < 0 then [-objdelta / delta] else [])
      (st ++ [if 0 < delta then objdelta / delta else -objdelta / delta]) := by
  obtain ⟨h1, h2, h3, h4, h5, h6⟩ := h
  by_cases hpos : 0 < delta
  · simp only [addObservation, if_pos hpos]
    refine ⟨?_, ?_, ?_, ?_, ?_, ?_⟩
    · intro c
      dsimp only
      by_cases hc : c = col
      · subst hc
        rw [Function.update_same, if_pos ⟨rfl, hpos⟩, h1]
        simp
      · rw [Function.update_noteq hc,
          if_neg (by intro h'; exact hc h'.1.symm), h1]
        simp
    · intro c
      dsimp only
      rw [if_neg (by intro h'; exact absurd hpos (asymm h'.2)),
        List.append_nil]
      exact h2 c
    · intro c
      dsimp only
      by_cases hc : c = col
      · subst hc
        rw [Function.update_same, if_pos ⟨rfl, hpos⟩, meanQ_append,
          h3, h1]
        push_cast
        ring
      · rw [Function.update_noteq hc,
          if_neg (by intro h'; exact hc h'.1.symm), List.append_nil]
        exact h3 c
    · intro c
      dsimp only
      rw [if_neg (by intro h'; exact absurd hpos (asymm h'.2)),
        List.append_nil]
      exact h4 c
    · dsimp only
      rw [h5]
      simp
    · dsimp only
      rw [meanQ_append, h6, h5]
      push_cast
      ring
  · have hneg : delta < 0 := lt_of_le_of_ne (not_lt.mp hpos) hδ
    simp only [addObservation, if_neg hpos]
    refine ⟨?_, ?_, ?_, ?_, ?_, ?_⟩
    · intro c
      dsimp only
      rw [if_neg (by intro h'; exact hpos h'.2), List.append_nil]
      exact h1 c
    · intro c
      dsimp only
      by_cases hc : c = col
      · subst hc
        rw [Function.update_same, if_pos ⟨rfl, hneg⟩, h2]
        simp
      · rw [Function.update_noteq hc,
          if_neg (by intro h'; exact hc h'.1.symm), h2]
        simp
    · intro c
      dsimp only
      rw [if_neg (by intro h'; exact hpos h'.2), List.append_nil]
      exact h3 c
    · intro c
      dsimp only
      by_cases hc : c = col
      · subst hc
        rw [Function.update_same, if_pos ⟨rfl, hneg⟩, meanQ_append,
          h4, h2]
        push_cast
        ring
      · rw [Function.update_noteq hc,
          if_neg (by intro h'; exact hc h'.1.symm), List.append_nil]
        exact h4 c
    · dsimp only
      rw [h5]
      simp
    · dsimp only
      rw [meanQ_append, h6, h5]
      push_cast
      ring

/-- Folding `addObservation` over a sequence of observations keeps the
running averages equal to the means of the accumulated sample lists. -/
theorem applyObs_fold (obs : List (ℕ × ℚ × ℚ)) :
    ∀ (s : PseudocostState) (su sd : ℕ → List ℚ) (st : List ℚ),
      (∀ o ∈ obs, o.2.1 ≠ 0) → PcInv s su sd st →
      PcInv (obs.foldl (fun s o => addObservation s o.1 o.2.1 o.2.2) s)
        (fun c => su c ++ upSamples obs c)
        (fun c => sd c ++ downSamples obs c)
        (st ++ allSamples obs) := by
  induction obs with
  | nil =>
    intro s su sd st _ h
    simpa [upSamples, downSamples, allSamples] using h
  | cons o rest ih =>
    intro s su sd st hδ h
    rw [List.foldl_cons]
    have hstep := addObservation_inv s su sd st o.1 o.2.1 o.2.2
      (hδ o (List.mem_cons_self o rest)) h
    have hrec := ih (addObservation s o.1 o.2.1 o.2.2) _ _ _
      (fun o' ho' => hδ o' (List.mem_cons_of_mem o ho')) hstep
    have e1 : (fun c => su c ++ upSamples (o :: rest) c) =
        (fun c => (su c ++ if o.1 = c ∧ 0 < o.2.1
            then [o.2.2 / o.2.1] else []) ++ upSamples rest c) := by
      funext c
      rw [upSamples_cons, ← List.append_assoc]
    have e2 : (fun c => sd c ++ downSamples (o :: rest) c) =
        (fun c => (sd c ++ if o.1 = c ∧ o.2.1 < 0
            then [-o.2.2 / o.2.1] else []) ++ downSamples rest c) := by
      funext c
      rw [downSamples_cons, ← List.append_assoc]
    have e3 : st ++ allSamples (o :: rest) =
        (st ++ [if 0 < o.2.1 then o.2.2 / o.2.1 else -o.2.2 / o.2.1]) ++
          allSamples rest := by
      simp [allSamples]
    rw [e1, e2, e3]
    exact hrec

/-- C7: after any sequence of `addObservation` calls with nonzero `delta` and
nonnegative `objdelta`, `pseudocostup[col]` is the arithmetic mean of the
samples `objdelta/delta` over that column's up branches, `pseudocostdown[col]`
the mean of `-objdelta/delta` over its down branches, and `cost_total` the
mean of all samples over all columns (with the matching sample counts). -/
theorem pseudocost_addObservation_means (obs : List (ℕ × ℚ × ℚ))
    (hδ : ∀ o ∈ obs, o.2.1 ≠ 0) (hobj : ∀ o ∈ obs, 0 ≤ o.2.2) (col : ℕ) :
    (upSamples obs col ≠ [] →
      (applyObservations obs).pseudocostup col =
        (upSamples obs col).sum / ((upSamples obs col).length : ℚ)) ∧
    (downSamples obs col ≠ [] →
      (applyObservations obs).pseudocostdown col =
        (downSamples obs col).sum / ((downSamples obs col).length : ℚ)) ∧
    (allSamples obs ≠ [] →
      (applyObservations obs).cost_total =
        (allSamples obs).sum / ((allSamples obs).length : ℚ)) ∧
    (applyObservations obs).nsamplesup col = (upSamples obs col).length ∧
    (applyObservations obs).nsamplesdown col = (downSamples obs col).length ∧
    (applyObservations obs).nsamplestotal = (allSamples obs).length := by
  have hinit : PcInv initPseudocost (fun _ => []) (fun _ => []) [] := by
    refine ⟨fun c => rfl, fun c => rfl, fun c => ?_, fun c => ?_, rfl, ?_⟩ <;>
      simp [initPseudocost, meanQ]
  obtain ⟨h1, h2, h3, h4, h5, h6⟩ :=
    applyObs_fold obs initPseudocost (fun _ => []) (fun _ => []) [] hδ hinit
  refine ⟨?_, ?_, ?_, ?_, ?_, ?_⟩
  · intro hne
    have h := h3 col
    simp only [List.nil_append] at h
    rw [applyObservations, h, meanQ, if_neg hne]
  · intro hne
    have h := h4 col
    simp only [List.nil_append] at h
    rw [applyObservations, h, meanQ, if_neg hne]
  · intro hne
    simp only [List.nil_append] at h6
    rw [applyObservations, h6, meanQ, if_neg hne]
  · have h := h1 col
    simp only [List.nil_append] at h
    rw [applyObservations, h]
  · have h := h2 col
    simp only [List.nil_append] at h
    rw [applyObservations, h]
  · simp only [List.nil_append] at h5
    rw [applyObservations, h5]

/-- Witness for `pseudocost_addObservation_means` on the concrete observation
sequence `[(0, 1, 2), (0, -1, 3)]`. -/
theorem pseudocost_addObservation_means_witness :
    upSamples ([(0, 1, 2), (0, -1, 3)] : List (ℕ × ℚ × ℚ)) 0 ≠ [] ∧
    (applyObservations ([(0, 1, 2), (0, -1, 3)] : List (ℕ × ℚ × ℚ))
        ).pseudocostup 0 =
      (upSamples ([(0, 1, 2), (0, -1, 3)] : List (ℕ × ℚ × ℚ)) 0).sum /
        ((upSamples ([(0, 1, 2), (0, -1, 3)] : List (ℕ × ℚ × ℚ)) 0).length :
          ℚ) :=
  ⟨by decide,
   (pseudocost_addObservation_means ([(0, 1, 2), (0, -1, 3)] :
        List (ℕ × ℚ × ℚ)) (by decide) (by decide) 0).1 (by decide)⟩

/-! ### The qpsolver packed-sparse vector (external/qpsolver/vector.hpp) and
the QP objective (external/qpsolver/instance.hpp) -/

/-- The qpsolver `Vector`: dimension, the packed index list
`index[0..num_nz)` (array entries beyond `num_nz` are unobserved), and the
dense value array as a function. -/
structure QpVector where
  dim : ℕ
  index : List ℕ
  value : ℕ → ℚ

/-- `Vector::dot` (vector.hpp): sum `value[index[i]] * other.value[index[i]]`
over this vector's packed indices. -/
def QpVector.dot (v w : QpVector) : ℚ :=
  (v.index.map (fun i => v.value i * w.value i)).sum

/-- Modelled from the spec: `Matrix` lives in matrix.hpp, which is not among
the sources; the spec describes `Q` as a (CSC) matrix, modelled here by its
dimensions and entries. -/
structure QpMatrix where
  num_rows : ℕ
  num_cols : ℕ
  entry : ℕ → ℕ → ℚ

/-- Modelled from the spec: the dense value of `Matrix::vec_mat(x)`, the row
vector `xᵀQ` with components `(xᵀQ)_j = Σ_i x_i Q_ij`. -/
def QpMatrix.vecMatValue (Q : QpMatrix) (x : QpVector) (j : ℕ) : ℚ :=
  if j < Q.num_cols then
    ((List.range Q.num_rows).map (fun i => x.value i * Q.entry i j)).sum
  else 0

/-- Modelled from the spec: `Matrix::vec_mat(x)` returns `xᵀQ` as a
packed-sparse vector (its index list holds exactly the nonzero
components). -/
def QpMatrix.vec_mat (Q : QpMatrix) (x : QpVector) : QpVector :=
  { dim := Q.num_cols,
    index := (List.range Q.num_cols).filter
      (fun j => decide (Q.vecMatValue x j ≠ 0)),
    value := Q.vecMatValue x }

/-- The `Instance` fields `objval` touches (instance.hpp): the dimensions,
the constant `offset`, the linear cost `c` and the quadratic matrix `Q`. -/
structure QpInstance where
  num_var : ℕ
  num_con : ℕ
  offset : ℚ
  c : QpVector
  Q : QpMatrix

/-- `Instance::objval` (instance.hpp): `c * x + 0.5 * (Q.vec_mat(x) * x)` —
note that the stored `offset` is not added. -/
def QpInstance.objval (inst : QpInstance) (x : QpVector) : ℚ :=
  inst.c.dot x + (1 / 2) * (inst.Q.vec_mat x).dot x

/-- The spec's objective value at `x`: `cᵀx + ½ xᵀQx + offset`, written with
dense sums over the variables. -/
def QpInstance.objectiveSpec (inst : QpInstance) (x : QpVector) : ℚ :=
  ((List.range inst.num_var).map (fun j => inst.c.value j * x.value j)).sum +
  (1 / 2) * ((List.range inst.num_var).map (fun i =>
      ((List.range inst.num_var).map (fun j =>
        x.value i * inst.Q.entry i j * x.value j)).sum)).sum +
  inst.offset

/-- The concrete instance of the C5 counterexample: one variable, zero cost
and quadratic data, and offset 1. -/
def objvalCexInstance : QpInstance :=
  ⟨1, 0, 1, ⟨1, [], fun _ => 0⟩, ⟨1, 1, fun _ _ => 0⟩⟩

/-- The origin, as a packed-sparse vector of dimension 1. -/
def objvalCexPoint : QpVector := ⟨1, [], fun _ => 0⟩

/-- C5 counterexample: on the instance with offset 1 and zero objective data,
`objval` at the origin returns 0 while the spec's objective value
`cᵀx + ½xᵀQx + offset` is the offset 1: `objval` omits the stored offset. -/
theorem objval_omits_offset :
    QpInstance.objval objvalCexInstance objvalCexPoint ≠
      QpInstance.objectiveSpec objvalCexInstance objvalCexPoint ∧
    QpInstance.objval objvalCexInstance objvalCexPoint = 0 ∧
    QpInstance.objectiveSpec objvalCexInstance objvalCexPoint =
      objvalCexInstance.offset := by
  refine ⟨?_, ?_, ?_⟩ <;>
    simp [QpInstance.objval, QpInstance.objectiveSpec, QpVector.dot,
      QpMatrix.vec_mat, QpMatrix.vecMatValue, objvalCexInstance,
      objvalCexPoint]

/-- Sums over `List.range` are `Finset.range` sums. -/
theorem list_range_map_sum (f : ℕ → ℚ) (n : ℕ) :
    ((List.range n).map f).sum = ∑ i in Finset.range n, f i := by
  induction n with
  | zero => simp
  | succ n ih =>
    rw [List.range_succ, Finset.sum_range_succ, List.map_append,
      List.sum_append, ih]
    simp

/-- A packed sum over a duplicate-free index list below `n` whose summand
vanishes off the list equals the dense sum over `0..n`. -/
theorem sum_over_index_eq_range (idx : List ℕ) (n : ℕ) (f : ℕ → ℚ)
    (hnodup : idx.Nodup) (hsub : ∀ p ∈ idx, p < n)
    (hzero : ∀ p, p < n → p ∉ idx → f p = 0) :
    (idx.map f).sum = ((List.range n).map f).sum := by
  rw [← List.sum_toFinset f hnodup, list_range_map_sum]
  apply Finset.sum_subset
  · intro p hp
    rw [Finset.mem_range]
    exact hsub p (List.mem_toFinset.mp hp)
  · intro p hp hnp
    exact hzero p (Finset.mem_range.mp hp)
      (fun h => hnp (List.mem_toFinset.mpr h))

/-- Dropping filtered-out entries whose summand vanishes does not change a
sum. -/
theorem sum_map_filter_eq (l : List ℕ) (p : ℕ → Bool) (f : ℕ → ℚ)
    (h : ∀ j ∈ l, p j = false → f j = 0) :
    ((l.filter p).map f).sum = (l.map f).sum := by
  induction l with
  | nil => rfl
  | cons a l ih =>
    have hrest : ∀ j ∈ l, p j = false → f j = 0 :=
      fun j hj => h j (List.mem_cons_of_mem a hj)
    cases hpa : p a with
    | true => simp [List.filter_cons, hpa, ih hrest]
    | false =>
      simp [List.filter_cons, hpa, ih hrest, h a (List.mem_cons_self a l) hpa]

/-- C5 (amended): for a well-formed cost vector (duplicate-free packed index
list covering its nonzeros, within the variable range) and matching `Q`
dimensions, `Instance::objval` returns `cᵀx + ½ xᵀQx` — the spec's objective
value *minus* the stored offset, which `objval` does not add. -/
theorem objval_eq_spec_minus_offset (inst : QpInstance) (x : QpVector)
    (hnodup : inst.c.index.Nodup)
    (hinv : ∀ p, inst.c.value p ≠ 0 → p ∈ inst.c.index)
    (hdim : ∀ p ∈ inst.c.index, p < inst.num_var)
    (hrows : inst.Q.num_rows = inst.num_var)
    (hcols : inst.Q.num_cols = inst.num_var) :
    QpInstance.objval inst x =
      QpInstance.objectiveSpec inst x - inst.offset := by
  have hdot : QpVector.dot inst.c x =
      ((List.range inst.num_var).map
        (fun j => inst.c.value j * x.value j)).sum :=
    sum_over_index_eq_range inst.c.index inst.num_var _ hnodup hdim
      (fun p _ hp => by
        have hv : inst.c.value p = 0 := by
          by_contra hv
          exact hp (hinv p hv)
        rw [hv, zero_mul])
  have hquad : QpVector.dot (inst.Q.vec_mat x) x =
      ∑ i in Finset.range inst.num_var, ∑ j in Finset.range inst.num_var,
        x.value i * inst.Q.entry i j * x.value j := by
    have h1 : QpVector.dot (inst.Q.vec_mat x) x =
        (((List.range inst.Q.num_cols).filter
          (fun j => decide (inst.Q.vecMatValue x j ≠ 0))).map
            (fun j => inst.Q.vecMatValue x j * x.value j)).sum := rfl
    rw [h1, sum_map_filter_eq _ _ _ (fun j _ hp => by
      have hz : inst.Q.vecMatValue x j = 0 := by simpa using hp
      rw [hz, zero_mul])]
    rw [list_range_map_sum, hcols]
    have h2 : ∀ j ∈ Finset.range inst.num_var,
        inst.Q.vecMatValue x j * x.value j =
        (∑ i in Finset.range inst.num_var,
          x.value i * inst.Q.entry i j) * x.value j := by
      intro j hj
      have hjlt : j < inst.Q.num_cols := by
        rw [hcols]; exact Finset.mem_range.mp hj
      rw [QpMatrix.vecMatValue, if_pos hjlt, list_range_map_sum, hrows]
    rw [Finset.sum_congr rfl h2]
    have h3 : ∀ j ∈ Finset.range inst.num_var,
        (∑ i in Finset.range inst.num_var,
          x.value i * inst.Q.entry i j) * x.value j =
        ∑ i in Finset.range inst.num_var,
          x.value i * inst.Q.entry i j * x.value j :=
      fun j _ => Finset.sum_mul _ _ _
    rw [Finset.sum_congr rfl h3, Finset.sum_comm]
  rw [QpInstance.objval, QpInstance.objectiveSpec]
  rw [show inst.c.dot x = QpVector.dot inst.c x from rfl, hdot]
  rw [show (inst.Q.vec_mat x).dot x =
    QpVector.dot (inst.Q.vec_mat x) x from rfl, hquad]
  simp only [list_range_map_sum]
  ring

/-- Witness for `objval_eq_spec_minus_offset` at the concrete counterexample
instance and point. -/
theorem objval_eq_spec_minus_offset_witness :
    QpInstance.objval objvalCexInstance objvalCexPoint =
      QpInstance.objectiveSpec objvalCexInstance objvalCexPoint -
        objvalCexInstance.offset :=
  objval_eq_spec_minus_offset objvalCexInstance objvalCexPoint
    (by decide) (fun p h => absurd rfl h) (by decide) rfl rfl

/-! ### The qpsolver `Vector` write operations (external/qpsolver/vector.hpp)
and their packed-sparse invariant -/

/-- The packed-sparse invariant of `Vector`: every position with a nonzero
dense value occurs among `index[0..num_nz)`. -/
def QpVector.Inv (v : QpVector) : Prop :=
  ∀ p, v.value p ≠ 0 → p ∈ v.index

/-- Well-formedness of the dense array: nonzero values only below `dim`
(the C++ `value` vector has exactly `dim` entries). -/
def QpVector.InDim (v : QpVector) : Prop :=
  ∀ p, v.value p ≠ 0 → p < v.dim

/-- A loop writing `value[p] = g p` at each packed index `p` (the loops of
`reset`, `repopulate`, unary `operator-` and scalar `operator*`, whose
stored values do not depend on the values already written). -/
def storeGo (g : ℕ → ℚ) : List ℕ → (ℕ → ℚ) → (ℕ → ℚ)
  | [], f => f
  | p :: rest, f => storeGo g rest (Function.update f p (g p))

/-- The loop of `scale` and `operator*=`: `value[index[i]] *= a`. -/
def scaleGo (a : ℚ) : List ℕ → (ℕ → ℚ) → (ℕ → ℚ)
  | [], f => f
  | p :: rest, f => scaleGo a rest (Function.update f p (f p * a))

/-- The loop of `sanitize`: keep (compact) the indices whose value exceeds
the threshold in magnitude, zero the dense value of the others. -/
def sanitizeGo (eps : ℚ) : List ℕ → (ℕ → ℚ) → List ℕ × (ℕ → ℚ)
  | [], val => ([], val)
  | p :: rest, val =>
    if eps < |val p| then
      let r := sanitizeGo eps rest val
      (p :: r.1, r.2)
    else
      sanitizeGo eps rest (Function.update val p 0)

/-- The loop of `saxpy`: for each packed index of `x`, append it to the index
list when the current dense value there is zero, then add `a·x.value`. -/
def saxpyGo (a : ℚ) (xval : ℕ → ℚ) :
    List ℕ → List ℕ × (ℕ → ℚ) → List ℕ × (ℕ → ℚ)
  | [], acc => acc
  | p :: rest, acc =>
    saxpyGo a xval rest
      (if acc.2 p = 0 then acc.1 ++ [p] else acc.1,
       Function.update acc.2 p (acc.2 p + a * xval p))

/-- The loop of `operator+=`: `value[other.index[i]] += other.value[…]`. -/
def addAssignGo (otherval : ℕ → ℚ) : List ℕ → (ℕ → ℚ) → (ℕ → ℚ)
  | [], f => f
  | p :: rest, f => addAssignGo otherval rest (Function.update f p (f p + otherval p))

/-- `Vector::reset` (vector.hpp): zero the dense value at every packed index
and empty the index list. -/
def QpVector.reset (v : QpVector) : QpVector :=
  { v with index := [],
           value := storeGo (fun _ => 0) v.index v.value }

/-- `Vector::repopulate` (vector.hpp): `reset`, then copy the other vector's
packed indices and the dense values at them. -/
def QpVector.repopulate (v other : QpVector) : QpVector :=
  { v.reset with
    index := other.index,
    value := storeGo other.value other.index (v.reset).value }

/-- `Vector::unit(dim, u, target)` (vector.hpp): `reset` the target, then
store index `u` with value one. -/
def QpVector.unit (d u : ℕ) (target : QpVector) : QpVector :=
  { target.reset with
    index := [u],
    value := Function.update (target.reset).value u 1 }

/-- `Vector::sanitize` (vector.hpp). -/
def QpVector.sanitize (v : QpVector) (eps : ℚ) : QpVector :=
  { v with index := (sanitizeGo eps v.index v.value).1,
           value := (sanitizeGo eps v.index v.value).2 }

/-- `Vector::resparsify` (vector.hpp): rebuild the index list as the
positions `0 ≤ i < dim` with a nonzero dense value, in order. -/
def QpVector.resparsify (v : QpVector) : QpVector :=
  { v with index := (List.range v.dim).filter (fun p => decide (v.value p ≠ 0)) }

/-- `Vector::scale` (vector.hpp). -/
def QpVector.scale (v : QpVector) (a : ℚ) : QpVector :=
  { v with value := scaleGo a v.index v.value }

/-- `Vector::saxpy(a, x)` (vector.hpp): `sanitize(0.0)`, the accumulate loop,
then `resparsify()`. -/
def QpVector.saxpy (v : QpVector) (a : ℚ) (x : QpVector) : QpVector :=
  let s := v.sanitize 0
  let r := saxpyGo a x.value x.index (s.index, s.value)
  QpVector.resparsify { dim := s.dim, index := r.1, value := r.2 }

/-- `Vector::saxpy(a, b, x)` (vector.hpp): `scale(a)` then `saxpy(b, x)`. -/
def QpVector.saxpyScaled (v : QpVector) (a b : ℚ) (x : QpVector) : QpVector :=
  (v.scale a).saxpy b x

/-- `Vector::operator+` (vector.hpp): dense sum over `0 ≤ i < dim` into a
fresh vector, indexing the nonzero results in order. -/
def QpVector.add (v w : QpVector) : QpVector :=
  { dim := v.dim,
    index := (List.range v.dim).filter
      (fun p => decide (v.value p + w.value p ≠ 0)),
    value := fun p => if p < v.dim then v.value p + w.value p else 0 }

/-- `Vector::operator-` (binary, vector.hpp). -/
def QpVector.sub (v w : QpVector) : QpVector :=
  { dim := v.dim,
    index := (List.range v.dim).filter
      (fun p => decide (v.value p - w.value p ≠ 0)),
    value := fun p => if p < v.dim then v.value p - w.value p else 0 }

/-- `Vector::operator-` (unary, vector.hpp): copy the packed indices and
store the negated values into a fresh zero vector. -/
def QpVector.neg (v : QpVector) : QpVector :=
  { dim := v.dim, index := v.index,
    value := storeGo (fun p => -(v.value p)) v.index (fun _ => 0) }

/-- `Vector::operator*` by a scalar (vector.hpp): copy the packed indices and
store the scaled values into a fresh zero vector. -/
def QpVector.smul (v : QpVector) (d : ℚ) : QpVector :=
  { dim := v.dim, index := v.index,
    value := storeGo (fun p => d * v.value p) v.index (fun _ => 0) }

/-- `Vector::operator+=` (vector.hpp): dense accumulate at the other vector's
packed indices, then `resparsify()` (the index-appending branch is commented
out in the source). -/
def QpVector.addAssign (v other : QpVector) : QpVector :=
  QpVector.resparsify
    { v with value := addAssignGo other.value other.index v.value }

/-- `Vector::operator*=` (vector.hpp). -/
def QpVector.mulAssign (v : QpVector) (d : ℚ) : QpVector :=
  { v with value := scaleGo d v.index v.value }

/-- The store loop writes `g` at the listed positions and nothing else. -/
theorem storeGo_value (g : ℕ → ℚ) (idx : List ℕ) :
    ∀ (f0 : ℕ → ℚ) (q : ℕ),
      storeGo g idx f0 q = if q ∈ idx then g q else f0 q := by
  induction idx with
  | nil => intro f0 q; simp [storeGo]
  | cons p rest ih =>
    intro f0 q
    rw [storeGo, ih]
    by_cases hq : q ∈ rest
    · simp [hq]
    · by_cases hqp : q = p
      · subst hqp
        simp [hq, Function.update_same]
      · simp [hq, hqp, Function.update_noteq hqp]

/-- The scale loop cannot create a nonzero value. -/
theorem scaleGo_zero (a : ℚ) (idx : List ℕ) :
    ∀ (f0 : ℕ → ℚ) (q : ℕ), f0 q = 0 → scaleGo a idx f0 q = 0 := by
  induction idx with
  | nil => intro f0 q h; exact h
  | cons p rest ih =>
    intro f0 q h
    rw [scaleGo]
    apply ih
    by_cases hqp : q = p
    · subst hqp
      rw [Function.update_same, h, zero_mul]
    · rw [Function.update_noteq hqp]
      exact h

/-- The saxpy loop does not write positions outside the other vector's packed
indices. -/
theorem saxpyGo_value_not_mem (a : ℚ) (xval : ℕ → ℚ) (idx : List ℕ) :
    ∀ (acc : List ℕ × (ℕ → ℚ)) (q : ℕ), q ∉ idx →
      (saxpyGo a xval idx acc).2 q = acc.2 q := by
  induction idx with
  | nil => intro acc q _; rfl
  | cons p rest ih =>
    intro acc q hq
    have hqp : q ≠ p := by
      intro h'
      subst h'
      exact hq (List.mem_cons_self q rest)
    rw [saxpyGo, ih _ q (fun hmem => hq (List.mem_cons_of_mem p hmem))]
    exact Function.update_noteq hqp _ _

/-- The accumulate loop of `operator+=` does not write positions outside the
other vector's packed indices. -/
theorem addAssignGo_value_not_mem (otherval : ℕ → ℚ) (idx : List ℕ) :
    ∀ (f0 : ℕ → ℚ) (q : ℕ), q ∉ idx →
      addAssignGo otherval idx f0 q = f0 q := by
  induction idx with
  | nil => intro f0 q _; rfl
  | cons p rest ih =>
    intro f0 q hq
    have hqp : q ≠ p := by
      intro h'
      subst h'
      exact hq (List.mem_cons_self q rest)
    rw [addAssignGo, ih _ q (fun hmem => hq (List.mem_cons_of_mem p hmem))]
    exact Function.update_noteq hqp _ _

/-- `sanitize` zeroes exactly the indexed entries with `|value| ≤ eps` and
leaves every other dense value unchanged. -/
theorem sanitizeGo_value (eps : ℚ) (idx : List ℕ) :
    ∀ (val : ℕ → ℚ) (q : ℕ),
      (sanitizeGo eps idx val).2 q =
        if q ∈ idx ∧ |val q| ≤ eps then 0 else val q := by
  induction idx with
  | nil => intro val q; simp [sanitizeGo]
  | cons p rest ih =>
    intro val q
    rw [sanitizeGo]
    by_cases hp : eps < |val p|
    · rw [if_pos hp]
      dsimp only
      rw [ih]
      by_cases hq : q ∈ rest ∧ |val q| ≤ eps
      · rw [if_pos hq, if_pos ⟨List.mem_cons_of_mem p hq.1, hq.2⟩]
      · rw [if_neg hq, if_neg ?_]
        rintro ⟨hmem, hle⟩
        rcases List.mem_cons.mp hmem with rfl | hmem'
        · exact absurd hle (not_le.mpr hp)
        · exact hq ⟨hmem', hle⟩
    · rw [if_neg hp, ih]
      have heps : |val p| ≤ eps := not_lt.mp hp
      have heps0 : (0 : ℚ) ≤ eps := le_trans (abs_nonneg _) heps
      by_cases hqp : q = p
      · subst hqp
        rw [Function.update_same]
        conv_rhs => rw [if_pos ⟨List.mem_cons_self q rest, heps⟩]
        simp
      · rw [Function.update_noteq hqp]
        by_cases hq : q ∈ rest ∧ |val q| ≤ eps
        · rw [if_pos hq, if_pos ⟨List.mem_cons_of_mem p hq.1, hq.2⟩]
        · rw [if_neg hq, if_neg ?_]
          rintro ⟨hmem, hle⟩
          rcases List.mem_cons.mp hmem with rfl | hmem'
          · exact hqp rfl
          · exact hq ⟨hmem', hle⟩

/-- `sanitize` keeps exactly the indices whose original value exceeds the
threshold in magnitude. -/
theorem sanitizeGo_index (eps : ℚ) (idx : List ℕ) :
    ∀ val : ℕ → ℚ,
      (sanitizeGo eps idx val).1 =
        idx.filter (fun p => decide (eps < |val p|)) := by
  induction idx with
  | nil => intro val; rfl
  | cons p rest ih =>
    intro val
    rw [sanitizeGo, List.filter_cons]
    by_cases hp : eps < |val p|
    · rw [if_pos hp]
      dsimp only
      rw [ih]
      simp [hp]
    · rw [if_neg hp, ih]
      have heps : |val p| ≤ eps := not_lt.mp hp
      have hcongr : ∀ q ∈ rest,
          (decide (eps < |Function.update val p 0 q|)) =
            decide (eps < |val q|) := by
        intro q _
        by_cases hqp : q = p
        · subst hqp
          rw [Function.update_same]
          have h1 : ¬ eps < |(0 : ℚ)| := by
            rw [abs_zero]
            exact not_lt.mpr (le_trans (abs_nonneg _) heps)
          rw [decide_eq_false h1, decide_eq_false hp]
        · rw [Function.update_noteq hqp]
      rw [List.filter_congr hcongr]
      simp [hp]

/-- After `reset` of a vector satisfying the invariant, every dense value is
zero. -/
theorem reset_value_zero (v : QpVector) (hv : v.Inv) :
    ∀ q, (v.reset).value q = 0 := by
  intro q
  show storeGo (fun _ => 0) v.index v.value q = 0
  rw [storeGo_value]
  by_cases hq : q ∈ v.index
  · rw [if_pos hq]
  · rw [if_neg hq]
    by_contra hne
    exact hq (hv q hne)

/-- `reset` preserves the packed-sparse invariant. -/
theorem reset_inv (v : QpVector) (hv : v.Inv) : (v.reset).Inv :=
  fun q hq => absurd (reset_value_zero v hv q) hq

/-- `repopulate` preserves the packed-sparse invariant. -/
theorem repopulate_inv (v other : QpVector) (hv : v.Inv) :
    (v.repopulate other).Inv := by
  intro q hq
  have h : (v.repopulate other).value q =
      if q ∈ other.index then other.value q else (v.reset).value q :=
    storeGo_value other.value other.index (v.reset).value q
  rw [h] at hq
  by_cases hmem : q ∈ other.index
  · exact hmem
  · rw [if_neg hmem] at hq
    exact absurd (reset_value_zero v hv q) hq

/-- `unit` (reference form) preserves the packed-sparse invariant. -/
theorem unit_inv (d u : ℕ) (v : QpVector) (hv : v.Inv) :
    (QpVector.unit d u v).Inv := by
  intro q hq
  have h : (QpVector.unit d u v).value q =
      Function.update (v.reset).value u 1 q := rfl
  rw [h] at hq
  by_cases hqu : q = u
  · subst hqu
    simp [QpVector.unit]
  · rw [Function.update_noteq hqu] at hq
    exact absurd (reset_value_zero v hv q) hq

/-- `sanitize(eps)` zeroes exactly the indexed entries with `|value| ≤ eps`
and leaves all other dense values unchanged. -/
theorem sanitize_value (v : QpVector) (eps : ℚ) :
    ∀ q, (v.sanitize eps).value q =
      if q ∈ v.index ∧ |v.value q| ≤ eps then 0 else v.value q :=
  fun q => sanitizeGo_value eps v.index v.value q

/-- `sanitize` preserves the packed-sparse invariant. -/
theorem sanitize_inv (v : QpVector) (eps : ℚ) (hv : v.Inv) :
    (v.sanitize eps).Inv := by
  intro q hq
  rw [sanitize_value] at hq
  show q ∈ (v.sanitize eps).index
  have hidx : (v.sanitize eps).index =
      v.index.filter (fun p => decide (eps < |v.value p|)) :=
    sanitizeGo_index eps v.index v.value
  rw [hidx, List.mem_filter]
  by_cases hcond : q ∈ v.index ∧ |v.value q| ≤ eps
  · rw [if_pos hcond] at hq
    exact absurd rfl hq
  · rw [if_neg hcond] at hq
    have hmem : q ∈ v.index := hv q hq
    have hgt : eps < |v.value q| := by
      by_contra hle
      exact hcond ⟨hmem, not_lt.mp hle⟩
    exact ⟨hmem, by simpa using hgt⟩

/-- `resparsify` indexes exactly the positions below `dim` with nonzero
dense value. -/
theorem resparsify_mem (v : QpVector) (q : ℕ) :
    q ∈ (v.resparsify).index ↔ q < v.dim ∧ v.value q ≠ 0 := by
  show q ∈ (List.range v.dim).filter _ ↔ _
  rw [List.mem_filter, List.mem_range]
  simp

/-- `resparsify` establishes the packed-sparse invariant for a dense array
supported below `dim`. -/
theorem resparsify_inv (v : QpVector) (hvd : v.InDim) : (v.resparsify).Inv := by
  intro q hq
  have hval : (v.resparsify).value q = v.value q := rfl
  rw [hval] at hq
  exact (resparsify_mem v q).mpr ⟨hvd q hq, hq⟩

/-- `scale` preserves the packed-sparse invariant. -/
theorem scale_inv (v : QpVector) (a : ℚ) (hv : v.Inv) : (v.scale a).Inv := by
  intro q hq
  have h : (v.scale a).value q = scaleGo a v.index v.value q := rfl
  rw [h] at hq
  exact hv q (fun hz => hq (scaleGo_zero a v.index v.value q hz))

/-- `scale` keeps the dense support below `dim`. -/
theorem scale_indim (v : QpVector) (a : ℚ) (hvd : v.InDim) :
    (v.scale a).InDim := by
  intro q hq
  have h : (v.scale a).value q = scaleGo a v.index v.value q := rfl
  rw [h] at hq
  exact hvd q (fun hz => hq (scaleGo_zero a v.index v.value q hz))

/-- `saxpy` preserves the packed-sparse invariant (its final `resparsify`
rebuilds the index list over the whole dense support). -/
theorem saxpy_inv (v : QpVector) (a : ℚ) (x : QpVector) (hvd : v.InDim)
    (hx : ∀ p ∈ x.index, p < v.dim) : (v.saxpy a x).Inv := by
  intro q hq
  have hval : (v.saxpy a x).value q =
      (saxpyGo a x.value x.index
        ((v.sanitize 0).index, (v.sanitize 0).value)).2 q := rfl
  rw [hval] at hq
  have hqdim : q < v.dim := by
    by_cases hmem : q ∈ x.index
    · exact hx q hmem
    · rw [saxpyGo_value_not_mem a x.value x.index _ q hmem] at hq
      dsimp only at hq
      rw [sanitize_value] at hq
      by_cases hcond : q ∈ v.index ∧ |v.value q| ≤ 0
      · rw [if_pos hcond] at hq
        exact absurd rfl hq
      · rw [if_neg hcond] at hq
        exact hvd q hq
  have hidx : (v.saxpy a x).index = (List.range v.dim).filter
      (fun p => decide ((saxpyGo a x.value x.index
        ((v.sanitize 0).index, (v.sanitize 0).value)).2 p ≠ 0)) := rfl
  rw [hidx, List.mem_filter, List.mem_range]
  exact ⟨hqdim, by simpa using hq⟩

/-- The two-scalar `saxpy` overload preserves the packed-sparse invariant. -/
theorem saxpyScaled_inv (v : QpVector) (a b : ℚ) (x : QpVector)
    (hvd : v.InDim) (hx : ∀ p ∈ x.index, p < v.dim) :
    (v.saxpyScaled a b x).Inv :=
  saxpy_inv (v.scale a) b x (scale_indim v a hvd) hx

/-- `operator+` produces a vector satisfying the packed-sparse invariant. -/
theorem add_inv (v w : QpVector) : (v.add w).Inv := by
  intro q hq
  have hval : (v.add w).value q =
      if q < v.dim then v.value q + w.value q else 0 := rfl
  rw [hval] at hq
  by_cases hlt : q < v.dim
  · rw [if_pos hlt] at hq
    show q ∈ (List.range v.dim).filter _
    rw [List.mem_filter, List.mem_range]
    exact ⟨hlt, by simpa using hq⟩
  · rw [if_neg hlt] at hq
    exact absurd rfl hq

/-- Binary `operator-` produces a vector satisfying the invariant. -/
theorem sub_inv (v w : QpVector) : (v.sub w).Inv := by
  intro q hq
  have hval : (v.sub w).value q =
      if q < v.dim then v.value q - w.value q else 0 := rfl
  rw [hval] at hq
  by_cases hlt : q < v.dim
  · rw [if_pos hlt] at hq
    show q ∈ (List.range v.dim).filter _
    rw [List.mem_filter, List.mem_range]
    exact ⟨hlt, by simpa using hq⟩
  · rw [if_neg hlt] at hq
    exact absurd rfl hq

/-- Unary `operator-` produces a vector satisfying the invariant. -/
theorem qpNeg_inv (v : QpVector) : (v.neg).Inv := by
  intro q hq
  have hval : (v.neg).value q =
      storeGo (fun p => -(v.value p)) v.index (fun _ => 0) q := rfl
  rw [hval, storeGo_value] at hq
  by_cases hmem : q ∈ v.index
  · exact hmem
  · rw [if_neg hmem] at hq
    exact absurd rfl hq

/-- `operator*` by a scalar produces a vector satisfying the invariant. -/
theorem qpSmul_inv (v : QpVector) (d : ℚ) : (v.smul d).Inv := by
  intro q hq
  have hval : (v.smul d).value q =
      storeGo (fun p => d * v.value p) v.index (fun _ => 0) q := rfl
  rw [hval, storeGo_value] at hq
  by_cases hmem : q ∈ v.index
  · exact hmem
  · rw [if_neg hmem] at hq
    exact absurd rfl hq

/-- `operator+=` preserves the packed-sparse invariant (its `resparsify`
rebuilds the index list). -/
theorem addAssign_inv (v other : QpVector) (hvd : v.InDim)
    (ho : ∀ p ∈ other.index, p < v.dim) : (v.addAssign other).Inv := by
  intro q hq
  have hval : (v.addAssign other).value q =
      addAssignGo other.value other.index v.value q := rfl
  rw [hval] at hq
  have hqdim : q < v.dim := by
    by_cases hmem : q ∈ other.index
    · exact ho q hmem
    · rw [addAssignGo_value_not_mem other.value other.index v.value q hmem]
        at hq
      exact hvd q hq
  have hidx : (v.addAssign other).index = (List.range v.dim).filter
      (fun p => decide (addAssignGo other.value other.index v.value p ≠ 0)) :=
    rfl
  rw [hidx, List.mem_filter, List.mem_range]
  exact ⟨hqdim, by simpa using hq⟩

/-- `operator*=` preserves the packed-sparse invariant. -/
theorem mulAssign_inv (v : QpVector) (d : ℚ) (hv : v.Inv) :
    (v.mulAssign d).Inv := by
  intro q hq
  have h : (v.mulAssign d).value q = scaleGo d v.index v.value q := rfl
  rw [h] at hq
  exact hv q (fun hz => hq (scaleGo_zero d v.index v.value q hz))

/-- C8: every `Vector` write operation of vector.hpp — `reset`,
`repopulate`, `unit`, `sanitize`, `resparsify`, `scale`, both `saxpy`
overloads, `operator+`, binary and unary `operator-`, scalar `operator*`,
`operator+=` and `operator*=` — preserves the packed-sparse invariant
(every nonzero dense value is indexed); moreover `sanitize(eps)` zeroes
exactly the indexed entries with `|value| ≤ eps`, and `resparsify` rebuilds
the index list as exactly the positions with nonzero dense value. -/
theorem vector_ops_preserve_invariant (v x : QpVector) (a b eps : ℚ)
    (d u : ℕ) (hv : v.Inv) (hvd : v.InDim)
    (hx : ∀ p ∈ x.index, p < v.dim) :
    (v.reset).Inv ∧
    (v.repopulate x).Inv ∧
    (QpVector.unit d u v).Inv ∧
    (v.sanitize eps).Inv ∧
    (v.resparsify).Inv ∧
    (v.scale a).Inv ∧
    (v.saxpy a x).Inv ∧
    (v.saxpyScaled a b x).Inv ∧
    (v.add x).Inv ∧
    (v.sub x).Inv ∧
    (v.neg).Inv ∧
    (v.smul a).Inv ∧
    (v.addAssign x).Inv ∧
    (v.mulAssign a).Inv ∧
    (∀ q, (v.sanitize eps).value q =
      if q ∈ v.index ∧ |v.value q| ≤ eps then 0 else v.value q) ∧
    (∀ q, q ∈ (v.resparsify).index ↔ q < v.dim ∧ v.value q ≠ 0) :=
  ⟨reset_inv v hv, repopulate_inv v x hv, unit_inv d u v hv,
   sanitize_inv v eps hv, resparsify_inv v hvd, scale_inv v a hv,
   saxpy_inv v a x hvd hx, saxpyScaled_inv v a b x hvd hx,
   add_inv v x, sub_inv v x, qpNeg_inv v, qpSmul_inv v a,
   addAssign_inv v x hvd hx, mulAssign_inv v a hv,
   sanitize_value v eps, resparsify_mem v⟩

/-- Witness for `vector_ops_preserve_invariant` at concrete vectors of
dimension 2, discharging its invariant and range hypotheses. -/
theorem vector_ops_preserve_invariant_witness :
    (QpVector.reset ⟨2, [], fun _ => 0⟩).Inv ∧
    (QpVector.addAssign ⟨2, [], fun _ => 0⟩ ⟨2, [0], fun _ => 0⟩).Inv :=
  ⟨(vector_ops_preserve_invariant ⟨2, [], fun _ => 0⟩ ⟨2, [0], fun _ => 0⟩
      1 1 0 2 1 (fun p h => absurd rfl h) (fun p h => absurd rfl h)
      (by decide)).1,
   (vector_ops_preserve_invariant ⟨2, [], fun _ => 0⟩ ⟨2, [0], fun _ => 0⟩
      1 1 0 2 1 (fun p h => absurd rfl h) (fun p h => absurd rfl h)
      (by decide)).2.2.2.2.2.2.2.2.2.2.2.2.1⟩
